import Mathlib

/-!
Shallow embedding of the Transcript-to-Chapter Segmentation Engine of
AudiobookConstructor (src/pages/chapter_splitter.py and the identical copy in
src/AudiobookConstructor.py).

Timestamps (Python floats) are modelled as rationals.  Python strings are
modelled as Lean `String` (a list of characters); the ASCII-level string
operations used by the source (`str.lower`, `str.strip`, `str.capitalize`,
decimal formatting of an `int`) are modelled explicitly below.

The external transcription collaborator (whisper) is out of scope: the engine
is modelled from the point where the list of transcript segments is available,
exactly as the source consumes `result["segments"]`.
-/

/-! ## Python string primitives used by the source -/

/-- Model of Python `str.lower()` on the ASCII strings handled by the engine:
lower-case every character. -/
def pyLower (s : String) : String := ⟨s.data.map Char.toLower⟩

/-- Strip whitespace characters from both ends of a character list. -/
def stripChars (cs : List Char) : List Char :=
  ((cs.dropWhile Char.isWhitespace).reverse.dropWhile Char.isWhitespace).reverse

/-- Model of Python `str.strip()`: remove whitespace from both ends. -/
def pyStrip (s : String) : String := ⟨stripChars s.data⟩

/-- Capitalisation on a character list: first character upper-cased, the rest
lower-cased. -/
def capChars : List Char → List Char
  | [] => []
  | c :: cs => c.toUpper :: cs.map Char.toLower

/-- Model of Python `str.capitalize()`. -/
def pyCapitalize (s : String) : String := ⟨capChars s.data⟩

/-- Value of a list of decimal digit characters, most significant first; this
models Python `int(...)` applied to the digit string captured by `(\d+)`. -/
def digitsToNat (ds : List Char) : Nat :=
  ds.foldl (fun a c => 10 * a + (c.toNat - 48)) 0

/-- Fuel-indexed digit expansion; any fuel above the number of digits yields
the decimal digits, most significant first. -/
def natReprCharsAux : Nat → Nat → List Char
  | 0, _ => []
  | fuel + 1, n =>
    if n < 10 then [Nat.digitChar n]
    else natReprCharsAux fuel (n / 10) ++ [Nat.digitChar (n % 10)]

/-- Decimal digit characters of a natural number, most significant first; this
models Python decimal formatting of a nonnegative `int` (as in
`f"Chapter {chapter_num}"`). -/
def natReprChars (n : Nat) : List Char := natReprCharsAux (n + 1) n

/-- Decimal rendering of a natural number as a string. -/
def natRepr (n : Nat) : String := ⟨natReprChars n⟩

/-! ## Data model -/

/-- One transcript segment (`result["segments"]` entry): `start`, `end` and
`text`.  The Python dict key `end` is modelled by the field `stop`. -/
structure Segment where
  start : ℚ
  stop : ℚ
  text : String
deriving Repr, DecidableEq

/-- One regex match produced by `find_sections`: the dict
`{"start", "end", "text", "match"}`.  Of the match object the source only uses
`group(1)` (the whole matched keyword phrase, modelled by `keyword`) and
`group(2)` (the chapter-number digits, modelled by `chapterNumber`, already
converted to a number; `none` when the numbered alternative did not match). -/
structure Marker where
  start : ℚ
  stop : ℚ
  text : String
  keyword : String
  chapterNumber : Option Nat
deriving Repr, DecidableEq

/-- One resolved chapter produced by `split_chapters`: the dict
`{"chapter", "start", "end", "file"}`.  The Python dict key `end` is modelled
by the field `endTime` (it is `None` exactly when the source stores `None`). -/
structure Chapter where
  chapter : String
  start : ℚ
  endTime : Option ℚ
  file : String
deriving Repr, DecidableEq

/-- The `non_chapters` accumulator of `find_sections`: a Python dict from the
capitalised keyword to the list of start timestamps, in insertion order.
Modelled as an association list in insertion order (Python dicts preserve
insertion order). -/
abbrev AnomalyReport : Type := List (String × List ℚ)

/-! ## Marker Scanner

The source builds markers by running `regex.finditer(text)` on each segment
with the case-insensitive alternation pattern
`(chapter (\d+)|kw1|...|kwN)`.  The scanner below models exactly that
matching: at each position the alternatives are tried in pattern order
(`chapter (\d+)` first, then each keyword literal), matching is
case-insensitive, `\d+` is a greedy nonempty digit run, and scanning resumes
after the end of each match (non-overlapping, as `finditer`). -/

/-- Match a literal pattern (given lower-case) case-insensitively against a
prefix of the input; returns the consumed input characters (original case) and
the rest. -/
def matchLit : List Char → List Char → Option (List Char × List Char)
  | [], cs => some ([], cs)
  | _ :: _, [] => none
  | p :: ps, c :: cs =>
    if c.toLower = p then
      match matchLit ps cs with
      | some (m, rest) => some (c :: m, rest)
      | none => none
    else none

/-- Match the `chapter (\d+)` alternative at the current position: the literal
`chapter ` (case-insensitively) followed by a greedy nonempty digit run. -/
def matchChapter (cs : List Char) : Option ((List Char × Option Nat) × List Char) :=
  match matchLit "chapter ".data cs with
  | none => none
  | some (m, rest) =>
    let ds := rest.takeWhile Char.isDigit
    if ds = [] then none
    else some ((m ++ ds, some (digitsToNat ds)), rest.dropWhile Char.isDigit)

/-- Try each keyword literal of the pattern, in pattern order. -/
def matchKeywords : List String → List Char → Option ((List Char × Option Nat) × List Char)
  | [], _ => none
  | k :: ks, cs =>
    match matchLit k.data cs with
    | some (m, rest) => some ((m, none), rest)
    | none => matchKeywords ks cs

/-- Try the whole alternation at the current position: the numbered-chapter
alternative first (it is first in both source patterns), then the keywords. -/
def matchAlt (kws : List String) (cs : List Char) : Option ((List Char × Option Nat) × List Char) :=
  match matchChapter cs with
  | some r => some r
  | none => matchKeywords kws cs

/-- Fuel-indexed scanning loop of `finditer`: emit the match at the current
position if any and resume after it, otherwise advance one character.  Every
match of the source's patterns consumes at least one character, so fuel equal
to the text length never runs out. -/
def scanTextFuel (kws : List String) : Nat → List Char → List (String × Option Nat)
  | 0, _ => []
  | _ + 1, [] => []
  | fuel + 1, c :: cs =>
    match matchAlt kws (c :: cs) with
    | some ((m, num), rest) => (⟨m⟩, num) :: scanTextFuel kws fuel rest
    | none => scanTextFuel kws fuel cs

/-- All matches of the alternation pattern in one segment text, in order. -/
def scanText (kws : List String) (s : String) : List (String × Option Nat) :=
  scanTextFuel kws s.data.length s.data

/-- All markers of a transcript, in segment iteration order; every marker of a
segment carries that segment's `start`, `end` and `text`, exactly as the
source appends one dict per regex match. -/
def scanSegments (kws : List String) (segs : List Segment) : List Marker :=
  segs.flatMap fun seg =>
    (scanText kws seg.text).map fun p =>
      { start := seg.start, stop := seg.stop, text := seg.text,
        keyword := p.1, chapterNumber := p.2 }

/-- Keyword alternatives of the default pattern of `find_sections`, in pattern
order. -/
def defaultKeywords : List String :=
  ["introduction", "conclusion", "prologue", "epilogue", "foreword",
   "afterword", "dedication", "acknowledgement", "appendix", "addendum",
   "glossary", "bibliography", "index", "preface"]

/-- Keyword alternatives of the restricted pattern that `split_chapters`
passes to `find_sections`, in pattern order. -/
def splitterKeywords : List String :=
  ["introduction", "prologue", "epilogue", "preface", "conclusion"]

/-! ## Boundary classification (`find_sections` after transcription) -/

/-- The `non_chapter_keywords` list of `find_sections`, in source order. -/
def nonChapterKeywords : List String :=
  ["introduction", "conclusion", "prologue", "epilogue", "foreword",
   "afterword", "preface", "appendix", "addendum", "glossary",
   "bibliography", "index", "dedication", "acknowledgement"]

/-- Keywords subject to the front-matter rule, in source order. -/
def frontMatterKws : List String := ["introduction", "prologue", "foreword", "preface"]

/-- Keywords subject to the back-matter rule, in source order. -/
def backMatterKws : List String :=
  ["conclusion", "epilogue", "afterword", "appendix", "addendum",
   "glossary", "bibliography", "index"]

/-- Keywords subject to the either-end rule, in source order. -/
def eitherEndKws : List String := ["dedication", "acknowledgement"]

/-- Model of `first_chapter_start is not None and start >= first_chapter_start`. -/
def afterFirst (f : Option ℚ) (t : ℚ) : Bool :=
  match f with
  | some fv => decide (t ≥ fv)
  | none => false

/-- Model of `last_chapter_start is not None and start <= last_chapter_start`. -/
def beforeLast (l : Option ℚ) (t : ℚ) : Bool :=
  match l with
  | some lv => decide (t ≤ lv)
  | none => false

/-- The anchor scan of `find_sections`: `first_chapter_start` is the `start`
of the earliest marker of the list with a chapter number,
`last_chapter_start` that of the latest; both `None` when no numbered marker
exists. -/
def chapterAnchors (ms : List Marker) : Option ℚ × Option ℚ :=
  ms.foldl
    (fun fl m =>
      match m.chapterNumber with
      | some _ =>
        (match fl.1 with
         | none => some m.start
         | some fv => some fv,
         some m.start)
      | none => fl)
    (none, none)

/-- Decision of the classification loop body of `find_sections` for one
marker: `true` exactly when the loop reaches the append at the bottom (none of
the `continue` statements fires), `false` when the marker is skipped. -/
def keepAnomaly (f l : Option ℚ) (m : Marker) : Bool :=
  if m.keyword = "" then false
  else if pyLower (pyStrip m.keyword) ∉ nonChapterKeywords then false
  else if pyLower (pyStrip m.keyword) ∈ frontMatterKws ∧ afterFirst f m.start then false
  else if pyLower (pyStrip m.keyword) ∈ backMatterKws ∧ beforeLast l m.start then false
  else if pyLower (pyStrip m.keyword) ∈ eitherEndKws ∧ afterFirst f m.start ∧ beforeLast l m.start then false
  else true

/-- Model of `non_chapters.setdefault(key, []).append(t)` as written in the
source: append to the existing entry, otherwise append a new entry at the
end. -/
def addAnomaly (rep : AnomalyReport) (key : String) (t : ℚ) : AnomalyReport :=
  if rep.any (fun p => p.1 == key) then
    rep.map (fun p => if p.1 == key then (p.1, p.2 ++ [t]) else p)
  else rep ++ [(key, [t])]

/-- Timestamps recorded in the report under one key (`non_chapters[key]`,
`[]` when the key is absent). -/
def lookupTimes (rep : AnomalyReport) (key : String) : List ℚ :=
  match rep.find? (fun p => p.1 == key) with
  | some p => p.2
  | none => []

/-- One step of the classification loop of `find_sections`. -/
def classifyStep (f l : Option ℚ) (rep : AnomalyReport) (m : Marker) : AnomalyReport :=
  if keepAnomaly f l m then addAnomaly rep (pyCapitalize (pyStrip m.keyword)) m.start
  else rep

/-- The `matches.sort(key=lambda m: m["start"])` of the source (Python `sort`
is stable, as is `List.mergeSort`). -/
def sortByStart (ms : List Marker) : List Marker :=
  ms.mergeSort (fun a b => decide (a.start ≤ b.start))

/-- The part of `find_sections` downstream of transcription and regex
scanning: sort the matches by start time, find the first/last chapter
anchors, and run the classification loop; returns the sorted match list and
the `non_chapters` report. -/
def find_sections_core (ms : List Marker) : List Marker × AnomalyReport :=
  let sorted := sortByStart ms
  let fl := chapterAnchors sorted
  (sorted, sorted.foldl (classifyStep fl.1 fl.2) [])

/-- Full `find_sections` on a transcript, for a given keyword alternation. -/
def find_sections (kws : List String) (segs : List Segment) : List Marker × AnomalyReport :=
  find_sections_core (scanSegments kws segs)

/-! ## Boundary resolver (`split_chapters`) -/

/-- Chapter label construction of `split_chapters`:
`"Chapter {num} - {titles[num-1]}"` when `1 <= num <= len(titles)`, else
`"Chapter {num}"`. -/
def chapterLabel (titles : List String) (num : Nat) : String :=
  if 1 ≤ num ∧ num ≤ titles.length then
    "Chapter " ++ natRepr num ++ " - " ++ titles.getD (num - 1) ""
  else
    "Chapter " ++ natRepr num

/-- The chapter dict appended by `split_chapters` for a kept numbered marker
`m`; `rest` is the tail of the sorted match list after `m`, so its head is
`matches[idx + 1]`.  The end time is the start of the next marker in the full
sorted list, else the last segment's end, else `None`; the output file is
`os.path.join(output_dir, f"{label}{ext}")`. -/
def mkChapter (titles : List String) (segs : List Segment) (outputDir inputExt : String)
    (m : Marker) (num : Nat) (rest : List Marker) : Chapter :=
  { chapter := chapterLabel titles num
    start := m.start
    endTime :=
      match rest with
      | m2 :: _ => some m2.start
      | [] =>
        match segs.getLast? with
        | some seg => some seg.stop
        | none => none
    file := outputDir ++ "/" ++ chapterLabel titles num ++ inputExt }

/-- The chapter construction loop of `split_chapters` over the sorted match
list, carrying the `seen_chapters` set: markers without a chapter number are
skipped, repeated chapter numbers are skipped, each kept marker appends one
chapter dict. -/
def buildChapters (titles : List String) (segs : List Segment) (outputDir inputExt : String) :
    List Marker → List Nat → List Chapter
  | [], _ => []
  | m :: rest, seen =>
    match m.chapterNumber with
    | none => buildChapters titles segs outputDir inputExt rest seen
    | some num =>
      if num ∈ seen then buildChapters titles segs outputDir inputExt rest seen
      else
        mkChapter titles segs outputDir inputExt m num rest ::
          buildChapters titles segs outputDir inputExt rest (num :: seen)

/-- Drop a literal pattern (case-sensitively) from the front of the input. -/
def dropLit : List Char → List Char → Option (List Char)
  | [], cs => some cs
  | _ :: _, [] => none
  | p :: ps, c :: cs => if c = p then dropLit ps cs else none

/-- Model of `re.match(r"Chapter (\d+)", label)` followed by `int(group(1))`:
a case-sensitive `Chapter ` prefix followed by a greedy nonempty digit run. -/
def parseChapterNum (cs : List Char) : Option Nat :=
  match dropLit "Chapter ".data cs with
  | none => none
  | some rest =>
    let ds := rest.takeWhile Char.isDigit
    if ds = [] then none else some (digitsToNat ds)

/-- The `chapter_sort_key` of `split_chapters`: the number parsed from the
label, else 9999. -/
def chapter_sort_key (ch : Chapter) : Nat :=
  match parseChapterNum ch.chapter.data with
  | some n => n
  | none => 9999

/-- The `chapters.sort(key=chapter_sort_key)` of the source. -/
def sortByNumber (chs : List Chapter) : List Chapter :=
  chs.mergeSort (fun a b => decide (chapter_sort_key a ≤ chapter_sort_key b))

/-- The part of `split_chapters` downstream of `find_sections`, as a function
of the scanned marker list: empty-match early return, re-sort by start, the
chapter construction loop, numeric re-sort, and empty-chapters check.  The
ffmpeg export loop only shells out per chapter and is out of scope. -/
def split_chapters_core (ms : List Marker) (segs : List Segment) (titles : List String)
    (outputDir inputExt : String) : List Chapter × AnomalyReport :=
  let res := find_sections_core ms
  let matchList := res.1
  let non_chapters := res.2
  if matchList = [] then ([], non_chapters)
  else
    let sorted := sortByStart matchList
    let chapters := buildChapters titles segs outputDir inputExt sorted []
    let chapters2 := sortByNumber chapters
    if chapters2 = [] then ([], non_chapters) else (chapters2, non_chapters)

/-- Full `split_chapters` on a transcript: it invokes `find_sections` with the
restricted pattern `(chapter (\d+)|introduction|prologue|epilogue|preface|conclusion)`. -/
def split_chapters (segs : List Segment) (titles : List String)
    (outputDir inputExt : String) : List Chapter × AnomalyReport :=
  split_chapters_core (scanSegments splitterKeywords segs) segs titles outputDir inputExt

/-! ## Derived notions used by the statements -/

/-- Marker `i` of the sorted list is kept with number `n`: it carries chapter
number `n` and no earlier marker of the list carries the same number (so `n`
is not yet in `seen_chapters` when the loop reaches index `i`). -/
def keptAt (l : List Marker) (i : Nat) (h : i < l.length) (n : Nat) : Prop :=
  (l.get ⟨i, h⟩).chapterNumber = some n ∧
    ∀ j (hj : j < i), (l.get ⟨j, Nat.lt_trans hj h⟩).chapterNumber ≠ some n

instance (l : List Marker) (i : Nat) (h : i < l.length) (n : Nat) :
    Decidable (keptAt l i h n) := by
  unfold keptAt
  infer_instance

/-- The end boundary that `split_chapters` assigns to the chapter whose marker
sits at index `k - 1` of the sorted list: the start of marker `k` when it
exists, else the last segment's end, else `None`. -/
def nextBoundary (l : List Marker) (segs : List Segment) (k : Nat) : Option ℚ :=
  if h : k < l.length then some (l.get ⟨k, h⟩).start
  else
    match segs.getLast? with
    | some seg => some seg.stop
    | none => none

/-- The nine default-pattern keywords that the restricted pattern of
`split_chapters` omits. -/
def excludedKeywords : List String :=
  ["foreword", "afterword", "dedication", "acknowledgement", "appendix",
   "addendum", "glossary", "bibliography", "index"]

/-! ## Helper lemmas: characters and Python string primitives -/

/-- Lower-casing fixes whitespace characters. -/
theorem toLower_of_isWhitespace {c : Char} (h : c.isWhitespace = true) : c.toLower = c := by
  simp only [Char.isWhitespace, Bool.or_eq_true, decide_eq_true_eq] at h
  rcases h with ((h | h) | h) | h <;> subst h <;> decide

/-- Whitespace characters are not digits. -/
theorem not_isDigit_of_isWhitespace {c : Char} (h : c.isWhitespace = true) : c.isDigit = false := by
  simp only [Char.isWhitespace, Bool.or_eq_true, decide_eq_true_eq] at h
  rcases h with ((h | h) | h) | h <;> subst h <;> decide

/-- Lower-casing fixes digit characters. -/
theorem toLower_of_isDigit {c : Char} (h : c.isDigit = true) : c.toLower = c := by
  simp only [Char.isDigit, Bool.and_eq_true, decide_eq_true_eq] at h
  have hle : c.toNat ≤ 57 := UInt32.toNat_le_of_le (by decide) h.2
  unfold Char.toLower
  rw [if_neg]
  omega

/-- If every character of a list fails a predicate, `dropWhile` is the
identity. -/
theorem dropWhile_eq_self_of_all_neg {p : α → Bool} {l : List α}
    (h : ∀ c ∈ l, p c = false) : l.dropWhile p = l := by
  cases l with
  | nil => rfl
  | cons c cs =>
    rw [List.dropWhile_cons_of_neg]
    simp [h c (by simp)]

/-- Stripping a list without whitespace is the identity. -/
theorem stripChars_eq_self {l : List Char} (h : ∀ c ∈ l, c.isWhitespace = false) :
    stripChars l = l := by
  unfold stripChars
  rw [dropWhile_eq_self_of_all_neg h]
  rw [dropWhile_eq_self_of_all_neg (by intro c hc; exact h c (List.mem_reverse.mp hc))]
  exact List.reverse_reverse l

/-- A character list whose lower-casing contains no whitespace contains no
whitespace itself. -/
theorem no_ws_of_map_toLower {l d : List Char} (hmap : l.map Char.toLower = d)
    (hd : ∀ c ∈ d, c.isWhitespace = false) : ∀ c ∈ l, c.isWhitespace = false := by
  intro c hc
  by_contra hws
  have hws' : c.isWhitespace = true := by
    cases h : c.isWhitespace
    · exact absurd h hws
    · rfl
  have : c.toLower ∈ d := by
    rw [← hmap]
    exact List.mem_map_of_mem _ hc
  rw [toLower_of_isWhitespace hws'] at this
  rw [hd c this] at hws'
  cases hws'

/-- Capitalisation determines the tail of the lower-casing. -/
theorem tail_map_toLower_eq_of_capChars_eq {l l' : List Char}
    (h : capChars l = capChars l') :
    (l.map Char.toLower).tail = (l'.map Char.toLower).tail := by
  cases l with
  | nil =>
    cases l' with
    | nil => rfl
    | cons c cs => simp [capChars] at h
  | cons c cs =>
    cases l' with
    | nil => simp [capChars] at h
    | cons c' cs' =>
      simp only [capChars, List.cons.injEq] at h
      simp [h.2]

/-- Among the fourteen structural keywords, the tail of the string determines
the string. -/
theorem nonChapterKeywords_tail_inj :
    ∀ w ∈ nonChapterKeywords, ∀ w' ∈ nonChapterKeywords,
      w.data.tail = w'.data.tail → w = w' := by decide

/-! ## Helper lemmas: the anomaly report dictionary -/

theorem lookupTimes_nil (k : String) : lookupTimes [] k = [] := rfl

theorem lookupTimes_cons (p : String × List ℚ) (rep : AnomalyReport) (k : String) :
    lookupTimes (p :: rep) k = if p.1 = k then p.2 else lookupTimes rep k := by
  unfold lookupTimes
  by_cases h : p.1 = k <;> simp [List.find?_cons, h]

theorem addAnomaly_cons_of_ne (p : String × List ℚ) (rep : AnomalyReport) (k' : String) (s : ℚ)
    (hne : p.1 ≠ k') : addAnomaly (p :: rep) k' s = p :: addAnomaly rep k' s := by
  unfold addAnomaly
  by_cases h : rep.any (fun q => q.1 == k') <;> simp [h, hne]

theorem addAnomaly_cons_of_eq (p : String × List ℚ) (rep : AnomalyReport) (k' : String) (s : ℚ)
    (heq : p.1 = k') :
    addAnomaly (p :: rep) k' s =
      (p.1, p.2 ++ [s]) :: rep.map (fun q => if q.1 == k' then (q.1, q.2 ++ [s]) else q) := by
  unfold addAnomaly
  simp [heq]

theorem lookupTimes_map_other (rep : AnomalyReport) (k k' : String) (s : ℚ) (h : k' ≠ k) :
    lookupTimes (rep.map (fun q => if q.1 == k' then (q.1, q.2 ++ [s]) else q)) k
      = lookupTimes rep k := by
  induction rep with
  | nil => rfl
  | cons p rest ih =>
    rw [List.map_cons, lookupTimes_cons, lookupTimes_cons]
    by_cases hp : p.1 = k'
    · have hbeq : (p.1 == k') = true := by simpa using hp
      have hpk : p.1 ≠ k := by rw [hp]; exact h
      rw [if_pos hbeq]
      rw [if_neg hpk, if_neg hpk]
      exact ih
    · have hbeq : ¬ ((p.1 == k') = true) := by simpa using hp
      rw [if_neg hbeq]
      by_cases hpk : p.1 = k
      · rw [if_pos hpk, if_pos hpk]
      · rw [if_neg hpk, if_neg hpk]
        exact ih

theorem lookupTimes_addAnomaly (rep : AnomalyReport) (k' : String) (s : ℚ) (k : String) :
    lookupTimes (addAnomaly rep k' s) k =
      if k' = k then lookupTimes rep k ++ [s] else lookupTimes rep k := by
  induction rep with
  | nil =>
    show lookupTimes (addAnomaly [] k' s) k = _
    unfold addAnomaly
    by_cases h : k' = k <;> simp [lookupTimes_cons, lookupTimes_nil, h]
  | cons p rest ih =>
    by_cases hp : p.1 = k'
    · rw [addAnomaly_cons_of_eq _ _ _ _ hp]
      by_cases hk : k' = k
      · have hpk : p.1 = k := hp.trans hk
        rw [lookupTimes_cons, lookupTimes_cons, if_pos hk, if_pos hpk, if_pos hpk]
      · have hpk : p.1 ≠ k := by rw [hp]; exact hk
        rw [lookupTimes_cons, lookupTimes_cons, if_neg hk, if_neg hpk, if_neg hpk]
        exact lookupTimes_map_other rest k k' s hk
    · rw [addAnomaly_cons_of_ne _ _ _ _ hp]
      rw [lookupTimes_cons, lookupTimes_cons]
      by_cases hpk : p.1 = k
      · have hk : k' ≠ k := by
          intro hkk
          exact hp (hpk.trans hkk.symm)
        rw [if_pos hpk, if_pos hpk, if_neg hk]
      · rw [if_neg hpk, if_neg hpk]
        exact ih

theorem mem_lookupTimes_addAnomaly {rep : AnomalyReport} {k' : String} {s : ℚ} {k : String}
    {t : ℚ} :
    t ∈ lookupTimes (addAnomaly rep k' s) k ↔
      t ∈ lookupTimes rep k ∨ (k' = k ∧ t = s) := by
  rw [lookupTimes_addAnomaly]
  by_cases h : k' = k <;> simp [h]

/-- Characterisation of the timestamps accumulated by the classification loop
of `find_sections`. -/
theorem mem_lookupTimes_foldl (f l : Option ℚ) (ms : List Marker) (rep : AnomalyReport)
    (k : String) (t : ℚ) :
    t ∈ lookupTimes (ms.foldl (classifyStep f l) rep) k ↔
      t ∈ lookupTimes rep k ∨
        ∃ m ∈ ms, keepAnomaly f l m = true ∧ pyCapitalize (pyStrip m.keyword) = k ∧ m.start = t := by
  induction ms generalizing rep with
  | nil => simp
  | cons m ms ih =>
    rw [List.foldl_cons]
    rw [ih]
    unfold classifyStep
    by_cases hkeep : keepAnomaly f l m = true
    · rw [if_pos hkeep]
      rw [mem_lookupTimes_addAnomaly]
      constructor
      · rintro ((h | ⟨hk, ht⟩) | ⟨m', hm', h1, h2, h3⟩)
        · exact Or.inl h
        · exact Or.inr ⟨m, List.mem_cons_self _ _, hkeep, hk, ht.symm⟩
        · exact Or.inr ⟨m', List.mem_cons_of_mem _ hm', h1, h2, h3⟩
      · rintro (h | ⟨m', hm', h1, h2, h3⟩)
        · exact Or.inl (Or.inl h)
        · rcases List.mem_cons.mp hm' with (rfl | hm'')
          · exact Or.inl (Or.inr ⟨h2, h3.symm⟩)
          · exact Or.inr ⟨m', hm'', h1, h2, h3⟩
    · rw [if_neg hkeep]
      constructor
      · rintro (h | ⟨m', hm', h1, h2, h3⟩)
        · exact Or.inl h
        · exact Or.inr ⟨m', List.mem_cons_of_mem _ hm', h1, h2, h3⟩
      · rintro (h | ⟨m', hm', h1, h2, h3⟩)
        · exact Or.inl h
        · rcases List.mem_cons.mp hm' with (rfl | hm'')
          · exact absurd h1 hkeep
          · exact Or.inr ⟨m', hm'', h1, h2, h3⟩

/-! ## Helper lemmas: the classification decision -/

theorem mem_sortByStart {m : Marker} {ms : List Marker} : m ∈ sortByStart ms ↔ m ∈ ms :=
  List.mem_mergeSort

theorem keyword_ne_empty_of_mem_nonChapter {m : Marker}
    (h : pyLower (pyStrip m.keyword) ∈ nonChapterKeywords) : m.keyword ≠ "" := by
  intro h0
  rw [h0] at h
  exact absurd h (by decide)

theorem keepAnomaly_mem_nonChapter {f l : Option ℚ} {m : Marker}
    (h : keepAnomaly f l m = true) : pyLower (pyStrip m.keyword) ∈ nonChapterKeywords := by
  unfold keepAnomaly at h
  by_cases h0 : m.keyword = ""
  · rw [if_pos h0] at h
    cases h
  · rw [if_neg h0] at h
    by_cases h1 : pyLower (pyStrip m.keyword) ∉ nonChapterKeywords
    · rw [if_pos h1] at h
      cases h
    · exact not_not.mp h1

/-- For a front-matter keyword the classification keeps the marker exactly
when the `start >= first_chapter_start` guard does not fire. -/
theorem keepAnomaly_front {f l : Option ℚ} {m : Marker}
    (hkw : pyLower (pyStrip m.keyword) ∈ frontMatterKws) :
    keepAnomaly f l m = true ↔ afterFirst f m.start = false := by
  have h14 : pyLower (pyStrip m.keyword) ∈ nonChapterKeywords := by
    have hsub : ∀ w ∈ frontMatterKws, w ∈ nonChapterKeywords := by decide
    exact hsub _ hkw
  have hnb : pyLower (pyStrip m.keyword) ∉ backMatterKws := by
    have hsub : ∀ w ∈ frontMatterKws, w ∉ backMatterKws := by decide
    exact hsub _ hkw
  have hne : pyLower (pyStrip m.keyword) ∉ eitherEndKws := by
    have hsub : ∀ w ∈ frontMatterKws, w ∉ eitherEndKws := by decide
    exact hsub _ hkw
  have hkw0 : m.keyword ≠ "" := keyword_ne_empty_of_mem_nonChapter h14
  unfold keepAnomaly
  rw [if_neg hkw0, if_neg (not_not_intro h14)]
  split_ifs with h1 h2 h3
  · simp [h1.2]
  · exact absurd h2.1 hnb
  · exact absurd h3.1 hne
  · have haf : afterFirst f m.start = false := by
      cases hb : afterFirst f m.start
      · rfl
      · exact absurd ⟨hkw, hb⟩ h1
    simp [haf]

/-- For a back-matter keyword the classification keeps the marker exactly
when the `start <= last_chapter_start` guard does not fire. -/
theorem keepAnomaly_back {f l : Option ℚ} {m : Marker}
    (hkw : pyLower (pyStrip m.keyword) ∈ backMatterKws) :
    keepAnomaly f l m = true ↔ beforeLast l m.start = false := by
  have h14 : pyLower (pyStrip m.keyword) ∈ nonChapterKeywords := by
    have hsub : ∀ w ∈ backMatterKws, w ∈ nonChapterKeywords := by decide
    exact hsub _ hkw
  have hnf : pyLower (pyStrip m.keyword) ∉ frontMatterKws := by
    have hsub : ∀ w ∈ backMatterKws, w ∉ frontMatterKws := by decide
    exact hsub _ hkw
  have hne : pyLower (pyStrip m.keyword) ∉ eitherEndKws := by
    have hsub : ∀ w ∈ backMatterKws, w ∉ eitherEndKws := by decide
    exact hsub _ hkw
  have hkw0 : m.keyword ≠ "" := keyword_ne_empty_of_mem_nonChapter h14
  unfold keepAnomaly
  rw [if_neg hkw0, if_neg (not_not_intro h14)]
  split_ifs with h1 h2 h3
  · exact absurd h1.1 hnf
  · simp [h2.2]
  · exact absurd h3.1 hne
  · have hbl : beforeLast l m.start = false := by
      cases hb : beforeLast l m.start
      · rfl
      · exact absurd ⟨hkw, hb⟩ h2
    simp [hbl]

/-- For an either-end keyword the classification keeps the marker exactly
when the closed-window guard does not fire. -/
theorem keepAnomaly_either {f l : Option ℚ} {m : Marker}
    (hkw : pyLower (pyStrip m.keyword) ∈ eitherEndKws) :
    keepAnomaly f l m = true ↔
      ¬ (afterFirst f m.start = true ∧ beforeLast l m.start = true) := by
  have h14 : pyLower (pyStrip m.keyword) ∈ nonChapterKeywords := by
    have hsub : ∀ w ∈ eitherEndKws, w ∈ nonChapterKeywords := by decide
    exact hsub _ hkw
  have hnf : pyLower (pyStrip m.keyword) ∉ frontMatterKws := by
    have hsub : ∀ w ∈ eitherEndKws, w ∉ frontMatterKws := by decide
    exact hsub _ hkw
  have hnb : pyLower (pyStrip m.keyword) ∉ backMatterKws := by
    have hsub : ∀ w ∈ eitherEndKws, w ∉ backMatterKws := by decide
    exact hsub _ hkw
  have hkw0 : m.keyword ≠ "" := keyword_ne_empty_of_mem_nonChapter h14
  unfold keepAnomaly
  rw [if_neg hkw0, if_neg (not_not_intro h14)]
  split_ifs with h1 h2 h3
  · exact absurd h1.1 hnf
  · exact absurd h2.1 hnb
  · simp only [Bool.false_eq_true, false_iff, not_not]
    exact ⟨h3.2.1, h3.2.2⟩
  · simp only [true_iff]
    intro hc
    exact h3 ⟨hkw, hc.1, hc.2⟩

/-- If two markers are classified under the same report key and both carry a
structural keyword, the keywords agree. -/
theorem kwl_eq_of_cap_eq {a b : String}
    (ha : pyLower (pyStrip a) ∈ nonChapterKeywords)
    (hb : pyLower (pyStrip b) ∈ nonChapterKeywords)
    (hcap : pyCapitalize (pyStrip a) = pyCapitalize (pyStrip b)) :
    pyLower (pyStrip a) = pyLower (pyStrip b) := by
  have hdata : capChars (stripChars a.data) = capChars (stripChars b.data) :=
    congrArg String.data hcap
  have htail := tail_map_toLower_eq_of_capChars_eq hdata
  exact nonChapterKeywords_tail_inj _ ha _ hb htail

/-- When no marker carries a chapter number the anchor scan yields no
anchors. -/
theorem chapterAnchors_of_no_num (ms : List Marker)
    (h : ∀ m ∈ ms, m.chapterNumber = none) : chapterAnchors ms = (none, none) := by
  unfold chapterAnchors
  induction ms with
  | nil => rfl
  | cons m rest ih =>
    rw [List.foldl_cons]
    have hm := h m (List.mem_cons_self _ _)
    rw [hm]
    exact ih (fun m' hm' => h m' (List.mem_cons_of_mem _ hm'))

/-- With no anchors, every structural-keyword marker is kept. -/
theorem keepAnomaly_none_none {m : Marker}
    (h14 : pyLower (pyStrip m.keyword) ∈ nonChapterKeywords) :
    keepAnomaly none none m = true := by
  have hkw0 : m.keyword ≠ "" := keyword_ne_empty_of_mem_nonChapter h14
  unfold keepAnomaly
  rw [if_neg hkw0, if_neg (not_not_intro h14)]
  have haf : afterFirst none m.start = false := rfl
  have hbl : beforeLast none m.start = false := rfl
  split_ifs with h1 h2 h3
  · rw [haf] at h1
    cases h1.2
  · rw [hbl] at h2
    cases h2.2
  · rw [haf] at h3
    cases h3.2.1
  · rfl

/-! ## Claims about the classification (C1, C2, C3, C7) -/

/-- C2 (amended): for a transcript whose marker list yields a defined
`firstChapterStart`, a marker whose keyword is one of introduction, prologue,
foreword, preface is recorded in the report (under its capitalised keyword) if
and only if its start is strictly before `firstChapterStart`; an occurrence at
or after `firstChapterStart` is silently discarded. -/
theorem front_matter_reported_iff (ms : List Marker) (f : ℚ) (m : Marker)
    (hf : (chapterAnchors (sortByStart ms)).1 = some f)
    (hm : m ∈ ms)
    (hkw : pyLower (pyStrip m.keyword) ∈ frontMatterKws) :
    m.start ∈ lookupTimes (find_sections_core ms).2 (pyCapitalize (pyStrip m.keyword)) ↔
      m.start < f := by
  have hrep : (find_sections_core ms).2 =
      (sortByStart ms).foldl
        (classifyStep (chapterAnchors (sortByStart ms)).1 (chapterAnchors (sortByStart ms)).2)
        [] := rfl
  rw [hrep, mem_lookupTimes_foldl]
  simp only [lookupTimes_nil, List.not_mem_nil, false_or]
  have h14 : pyLower (pyStrip m.keyword) ∈ nonChapterKeywords := by
    have hsub : ∀ w ∈ frontMatterKws, w ∈ nonChapterKeywords := by decide
    exact hsub _ hkw
  constructor
  · rintro ⟨m', hm', hkeep, hcap, hstart⟩
    have h14' : pyLower (pyStrip m'.keyword) ∈ nonChapterKeywords :=
      keepAnomaly_mem_nonChapter hkeep
    have hkwl : pyLower (pyStrip m'.keyword) = pyLower (pyStrip m.keyword) :=
      kwl_eq_of_cap_eq h14' h14 (by rw [hcap])
    have hkw' : pyLower (pyStrip m'.keyword) ∈ frontMatterKws := by
      rw [hkwl]
      exact hkw
    have haf := (keepAnomaly_front hkw').mp hkeep
    rw [hf] at haf
    unfold afterFirst at haf
    rw [← hstart]
    exact lt_of_not_ge (of_decide_eq_false haf)
  · intro hlt
    refine ⟨m, mem_sortByStart.mpr hm, ?_, rfl, rfl⟩
    rw [keepAnomaly_front hkw, hf]
    unfold afterFirst
    simp only [decide_eq_false_iff_not, ge_iff_le, not_le]
    exact hlt

/-- Sorting an already start-sorted marker list changes nothing (Python
`list.sort` and `List.mergeSort` are both stable). -/
theorem sortByStart_of_sorted {ms : List Marker}
    (h : ms.Pairwise (fun a b => decide (a.start ≤ b.start) = true)) :
    sortByStart ms = ms :=
  List.mergeSort_of_sorted h

/-- Expansion of the report component of `find_sections_core`. -/
theorem find_sections_core_snd (ms : List Marker) :
    (find_sections_core ms).2 =
      (sortByStart ms).foldl
        (classifyStep (chapterAnchors (sortByStart ms)).1 (chapterAnchors (sortByStart ms)).2)
        [] := rfl

/-- C2 counterexample: a `prologue` marker at `t=5` with
`firstChapterStart = 20` IS recorded under the key `"Prologue"`, and the
`prologue` marker at `t=25` (at or after `firstChapterStart`) is NOT recorded:
the report polarity is the opposite of the claim. -/
theorem front_matter_cex :
    chapterAnchors (sortByStart
      [⟨5, 6, "t", "prologue", none⟩, ⟨20, 21, "t", "chapter 1", some 1⟩,
       ⟨25, 26, "t", "prologue", none⟩]) = (some 20, some 20) ∧
    lookupTimes (find_sections_core
      [⟨5, 6, "t", "prologue", none⟩, ⟨20, 21, "t", "chapter 1", some 1⟩,
       ⟨25, 26, "t", "prologue", none⟩]).2 "Prologue" = [5] := by
  have hs : sortByStart
      [⟨5, 6, "t", "prologue", none⟩, ⟨20, 21, "t", "chapter 1", some 1⟩,
       ⟨25, 26, "t", "prologue", none⟩] =
      [⟨5, 6, "t", "prologue", none⟩, ⟨20, 21, "t", "chapter 1", some 1⟩,
       ⟨25, 26, "t", "prologue", none⟩] := sortByStart_of_sorted (by decide)
  constructor
  · rw [hs]
    decide
  · rw [find_sections_core_snd, hs]
    decide

/-- C3 (amended): for a transcript whose marker list yields a defined
`lastChapterStart`, a marker whose keyword is one of conclusion, epilogue,
afterword, appendix, addendum, glossary, bibliography, index is recorded in
the report if and only if its start is strictly after `lastChapterStart`; an
occurrence at or before `lastChapterStart` is silently discarded. -/
theorem back_matter_reported_iff (ms : List Marker) (l : ℚ) (m : Marker)
    (hl : (chapterAnchors (sortByStart ms)).2 = some l)
    (hm : m ∈ ms)
    (hkw : pyLower (pyStrip m.keyword) ∈ backMatterKws) :
    m.start ∈ lookupTimes (find_sections_core ms).2 (pyCapitalize (pyStrip m.keyword)) ↔
      l < m.start := by
  have hrep : (find_sections_core ms).2 =
      (sortByStart ms).foldl
        (classifyStep (chapterAnchors (sortByStart ms)).1 (chapterAnchors (sortByStart ms)).2)
        [] := rfl
  rw [hrep, mem_lookupTimes_foldl]
  simp only [lookupTimes_nil, List.not_mem_nil, false_or]
  have h14 : pyLower (pyStrip m.keyword) ∈ nonChapterKeywords := by
    have hsub : ∀ w ∈ backMatterKws, w ∈ nonChapterKeywords := by decide
    exact hsub _ hkw
  constructor
  · rintro ⟨m', hm', hkeep, hcap, hstart⟩
    have h14' : pyLower (pyStrip m'.keyword) ∈ nonChapterKeywords :=
      keepAnomaly_mem_nonChapter hkeep
    have hkwl : pyLower (pyStrip m'.keyword) = pyLower (pyStrip m.keyword) :=
      kwl_eq_of_cap_eq h14' h14 (by rw [hcap])
    have hkw' : pyLower (pyStrip m'.keyword) ∈ backMatterKws := by
      rw [hkwl]
      exact hkw
    have hbl := (keepAnomaly_back hkw').mp hkeep
    rw [hl] at hbl
    unfold beforeLast at hbl
    rw [← hstart]
    exact lt_of_not_ge (of_decide_eq_false hbl)
  · intro hlt
    refine ⟨m, mem_sortByStart.mpr hm, ?_, rfl, rfl⟩
    rw [keepAnomaly_back hkw, hl]
    unfold beforeLast
    simp only [decide_eq_false_iff_not, not_le]
    exact hlt

/-- C3 counterexample: with `lastChapterStart = 20`, the `epilogue` marker at
`t=30` (strictly after the last chapter) IS recorded while the `epilogue`
marker at `t=10` (at or before it) is NOT: the opposite of the claim. -/
theorem back_matter_cex :
    chapterAnchors (sortByStart
      [⟨10, 11, "t", "epilogue", none⟩, ⟨20, 21, "t", "chapter 1", some 1⟩,
       ⟨30, 31, "t", "epilogue", none⟩]) = (some 20, some 20) ∧
    lookupTimes (find_sections_core
      [⟨10, 11, "t", "epilogue", none⟩, ⟨20, 21, "t", "chapter 1", some 1⟩,
       ⟨30, 31, "t", "epilogue", none⟩]).2 "Epilogue" = [30] := by
  have hs : sortByStart
      [⟨10, 11, "t", "epilogue", none⟩, ⟨20, 21, "t", "chapter 1", some 1⟩,
       ⟨30, 31, "t", "epilogue", none⟩] =
      [⟨10, 11, "t", "epilogue", none⟩, ⟨20, 21, "t", "chapter 1", some 1⟩,
       ⟨30, 31, "t", "epilogue", none⟩] := sortByStart_of_sorted (by decide)
  constructor
  · rw [hs]
    decide
  · rw [find_sections_core_snd, hs]
    decide

/-- C1 (amended): for a transcript whose marker list yields defined
`firstChapterStart` and `lastChapterStart`, a `dedication` or
`acknowledgement` marker is recorded in the report if and only if its start
lies OUTSIDE the closed interval `[firstChapterStart, lastChapterStart]`; an
occurrence inside that interval is silently discarded. -/
theorem either_end_reported_iff (ms : List Marker) (f l : ℚ) (m : Marker)
    (hf : (chapterAnchors (sortByStart ms)).1 = some f)
    (hl : (chapterAnchors (sortByStart ms)).2 = some l)
    (hm : m ∈ ms)
    (hkw : pyLower (pyStrip m.keyword) ∈ eitherEndKws) :
    m.start ∈ lookupTimes (find_sections_core ms).2 (pyCapitalize (pyStrip m.keyword)) ↔
      ¬ (f ≤ m.start ∧ m.start ≤ l) := by
  have hrep : (find_sections_core ms).2 =
      (sortByStart ms).foldl
        (classifyStep (chapterAnchors (sortByStart ms)).1 (chapterAnchors (sortByStart ms)).2)
        [] := rfl
  rw [hrep, mem_lookupTimes_foldl]
  simp only [lookupTimes_nil, List.not_mem_nil, false_or]
  have h14 : pyLower (pyStrip m.keyword) ∈ nonChapterKeywords := by
    have hsub : ∀ w ∈ eitherEndKws, w ∈ nonChapterKeywords := by decide
    exact hsub _ hkw
  constructor
  · rintro ⟨m', hm', hkeep, hcap, hstart⟩
    have h14' : pyLower (pyStrip m'.keyword) ∈ nonChapterKeywords :=
      keepAnomaly_mem_nonChapter hkeep
    have hkwl : pyLower (pyStrip m'.keyword) = pyLower (pyStrip m.keyword) :=
      kwl_eq_of_cap_eq h14' h14 (by rw [hcap])
    have hkw' : pyLower (pyStrip m'.keyword) ∈ eitherEndKws := by
      rw [hkwl]
      exact hkw
    have hwin := (keepAnomaly_either hkw').mp hkeep
    rw [hf] at hwin
    rw [hl] at hwin
    unfold afterFirst beforeLast at hwin
    rw [← hstart]
    intro hc
    exact hwin ⟨decide_eq_true hc.1, decide_eq_true hc.2⟩
  · intro hout
    refine ⟨m, mem_sortByStart.mpr hm, ?_, rfl, rfl⟩
    rw [keepAnomaly_either hkw, hf, hl]
    unfold afterFirst beforeLast
    intro hc
    exact hout ⟨of_decide_eq_true hc.1, of_decide_eq_true hc.2⟩

/-- C1 counterexample: a `dedication` marker at `t=50`, inside the closed
window `[20, 100]`, produces NO report entry (the report is empty), while the
claim demands that exactly the inside occurrences be reported. -/
theorem either_end_cex :
    chapterAnchors (sortByStart
      [⟨20, 21, "t", "chapter 1", some 1⟩, ⟨50, 51, "t", "dedication", none⟩,
       ⟨100, 101, "t", "chapter 2", some 2⟩]) = (some 20, some 100) ∧
    (find_sections_core
      [⟨20, 21, "t", "chapter 1", some 1⟩, ⟨50, 51, "t", "dedication", none⟩,
       ⟨100, 101, "t", "chapter 2", some 2⟩]).2 = [] := by
  have hs : sortByStart
      [⟨20, 21, "t", "chapter 1", some 1⟩, ⟨50, 51, "t", "dedication", none⟩,
       ⟨100, 101, "t", "chapter 2", some 2⟩] =
      [⟨20, 21, "t", "chapter 1", some 1⟩, ⟨50, 51, "t", "dedication", none⟩,
       ⟨100, 101, "t", "chapter 2", some 2⟩] := sortByStart_of_sorted (by decide)
  constructor
  · rw [hs]
    decide
  · rw [find_sections_core_snd, hs]
    decide

/-- C7 (confirmed): when the transcript yields no numbered chapter marker at
all, no placement rule filters anything: every marker whose keyword is in the
structural set is recorded in the report under its capitalised keyword. -/
theorem no_chapters_all_reported (ms : List Marker) (m : Marker)
    (hnum : ∀ m' ∈ ms, m'.chapterNumber = none)
    (hm : m ∈ ms)
    (hkw : pyLower (pyStrip m.keyword) ∈ nonChapterKeywords) :
    m.start ∈ lookupTimes (find_sections_core ms).2 (pyCapitalize (pyStrip m.keyword)) := by
  have hanch : chapterAnchors (sortByStart ms) = (none, none) :=
    chapterAnchors_of_no_num _ (fun m' hm' => hnum m' (mem_sortByStart.mp hm'))
  have hrep : (find_sections_core ms).2 =
      (sortByStart ms).foldl
        (classifyStep (chapterAnchors (sortByStart ms)).1 (chapterAnchors (sortByStart ms)).2)
        [] := rfl
  rw [hrep, hanch, mem_lookupTimes_foldl]
  exact Or.inr ⟨m, mem_sortByStart.mpr hm, keepAnomaly_none_none hkw, rfl, rfl⟩

/-! ## Helper lemmas: decimal labels and the numeric sort key -/

theorem natReprCharsAux_ne_nil (fuel n : Nat) (hf : n < fuel) :
    natReprCharsAux fuel n ≠ [] := by
  cases fuel with
  | zero => omega
  | succ fuel =>
    unfold natReprCharsAux
    by_cases h : n < 10
    · rw [if_pos h]
      simp
    · rw [if_neg h]
      simp

theorem natReprChars_ne_nil (n : Nat) : natReprChars n ≠ [] :=
  natReprCharsAux_ne_nil (n + 1) n (Nat.lt_succ_self n)

theorem isDigit_natReprCharsAux (fuel : Nat) :
    ∀ (n : Nat), n < fuel → ∀ c ∈ natReprCharsAux fuel n, c.isDigit = true := by
  induction fuel with
  | zero => omega
  | succ fuel ih =>
    intro n hn c hc
    have hd : ∀ k, k < 10 → (Nat.digitChar k).isDigit = true := by decide
    unfold natReprCharsAux at hc
    by_cases h : n < 10
    · rw [if_pos h] at hc
      rcases List.mem_singleton.mp hc with rfl
      exact hd n h
    · rw [if_neg h] at hc
      rcases List.mem_append.mp hc with hc1 | hc2
      · exact ih (n / 10) (by omega) c hc1
      · rcases List.mem_singleton.mp hc2 with rfl
        exact hd (n % 10) (Nat.mod_lt _ (by omega))

theorem isDigit_natReprChars (n : Nat) : ∀ c ∈ natReprChars n, c.isDigit = true :=
  isDigit_natReprCharsAux (n + 1) n (Nat.lt_succ_self n)

theorem digitsToNat_append_one (l : List Char) (c : Char) :
    digitsToNat (l ++ [c]) = 10 * digitsToNat l + (c.toNat - 48) := by
  unfold digitsToNat
  rw [List.foldl_append]
  rfl

theorem digitsToNat_natReprCharsAux (fuel : Nat) :
    ∀ (n : Nat), n < fuel → digitsToNat (natReprCharsAux fuel n) = n := by
  induction fuel with
  | zero => omega
  | succ fuel ih =>
    intro n hn
    unfold natReprCharsAux
    by_cases h : n < 10
    · rw [if_pos h]
      have hd : ∀ k, k < 10 → digitsToNat [Nat.digitChar k] = k := by decide
      exact hd n h
    · rw [if_neg h]
      rw [digitsToNat_append_one]
      rw [ih (n / 10) (by omega)]
      have h10 : n % 10 < 10 := Nat.mod_lt _ (by omega)
      have hd : ∀ k, k < 10 → (Nat.digitChar k).toNat - 48 = k := by decide
      rw [hd _ h10]
      omega

theorem digitsToNat_natReprChars (n : Nat) : digitsToNat (natReprChars n) = n :=
  digitsToNat_natReprCharsAux (n + 1) n (Nat.lt_succ_self n)

theorem dropLit_self_append (p rest : List Char) : dropLit p (p ++ rest) = some rest := by
  induction p with
  | nil => rfl
  | cons c cs ih => simp [dropLit, ih]

/-- Parsing a label of the shape `Chapter <digits><suffix>` (suffix empty or
starting with a non-digit) recovers the number. -/
theorem parseChapterNum_label (n : Nat) (suffix : List Char)
    (hsuf : suffix = [] ∨ ∃ c cs, suffix = c :: cs ∧ c.isDigit = false) :
    parseChapterNum ("Chapter ".data ++ (natReprChars n ++ suffix)) = some n := by
  unfold parseChapterNum
  rw [dropLit_self_append]
  show (if List.takeWhile Char.isDigit (natReprChars n ++ suffix) = [] then none
        else some (digitsToNat (List.takeWhile Char.isDigit (natReprChars n ++ suffix))))
      = some n
  rw [List.takeWhile_append_of_pos (isDigit_natReprChars n)]
  have htw : suffix.takeWhile Char.isDigit = [] := by
    rcases hsuf with rfl | ⟨c, cs, rfl, hc⟩
    · rfl
    · rw [List.takeWhile_cons_of_neg (by simp [hc])]
  rw [htw, List.append_nil]
  rw [if_neg (natReprChars_ne_nil n)]
  rw [digitsToNat_natReprChars]

/-- The character data of a chapter label decomposes as
`Chapter <digits><suffix>` with a suffix that is empty or starts with a
space. -/
theorem chapterLabel_data (titles : List String) (num : Nat) :
    ∃ suffix, (chapterLabel titles num).data = "Chapter ".data ++ (natReprChars num ++ suffix) ∧
      (suffix = [] ∨ ∃ c cs, suffix = c :: cs ∧ c.isDigit = false) := by
  unfold chapterLabel
  by_cases h : 1 ≤ num ∧ num ≤ titles.length
  · rw [if_pos h]
    refine ⟨(" - " ++ titles.getD (num - 1) "").data, ?_, ?_⟩
    · simp [String.data_append, natRepr, List.append_assoc]
    · exact Or.inr ⟨' ', ('-' :: ' ' :: (titles.getD (num - 1) "").data), by
        simp [String.data_append], by decide⟩
  · rw [if_neg h]
    refine ⟨[], ?_, Or.inl rfl⟩
    simp [String.data_append, natRepr]

theorem chapter_sort_key_mkChapter (titles : List String) (segs : List Segment)
    (dir ext : String) (m : Marker) (num : Nat) (rest : List Marker) :
    chapter_sort_key (mkChapter titles segs dir ext m num rest) = num := by
  obtain ⟨suffix, hdata, hsuf⟩ := chapterLabel_data titles num
  unfold chapter_sort_key mkChapter
  simp only []
  rw [hdata, parseChapterNum_label num suffix hsuf]

/-! ## Helper lemmas: the chapter construction loop -/

theorem buildChapters_nil (titles : List String) (segs : List Segment) (dir ext : String)
    (seen : List Nat) : buildChapters titles segs dir ext [] seen = [] := rfl

theorem buildChapters_cons_none (titles : List String) (segs : List Segment) (dir ext : String)
    (m : Marker) (rest : List Marker) (seen : List Nat) (hm : m.chapterNumber = none) :
    buildChapters titles segs dir ext (m :: rest) seen =
      buildChapters titles segs dir ext rest seen := by
  conv_lhs => unfold buildChapters
  rw [hm]

theorem buildChapters_cons_some (titles : List String) (segs : List Segment) (dir ext : String)
    (m : Marker) (rest : List Marker) (seen : List Nat) (num : Nat)
    (hm : m.chapterNumber = some num) :
    buildChapters titles segs dir ext (m :: rest) seen =
      if num ∈ seen then buildChapters titles segs dir ext rest seen
      else mkChapter titles segs dir ext m num rest ::
        buildChapters titles segs dir ext rest (num :: seen) := by
  conv_lhs => unfold buildChapters
  rw [hm]

theorem mkChapter_endTime_eq_nextBoundary (titles : List String) (segs : List Segment)
    (dir ext : String) (m : Marker) (num : Nat) (l : List Marker) (k : Nat) :
    (mkChapter titles segs dir ext m num (l.drop k)).endTime = nextBoundary l segs k := by
  unfold mkChapter nextBoundary
  by_cases h : k < l.length
  · rw [dif_pos h]
    rw [List.drop_eq_getElem_cons h]
    rfl
  · rw [dif_neg h]
    rw [List.drop_eq_nil_of_le (by omega)]

/-- A marker kept by the loop contributes its chapter dict, with the tail of
the sorted list after it giving the end boundary. -/
theorem mem_buildChapters_of_kept (titles : List String) (segs : List Segment)
    (dir ext : String) :
    ∀ (l : List Marker) (seen : List Nat) (i : Nat) (h : i < l.length) (n : Nat),
      (l.get ⟨i, h⟩).chapterNumber = some n →
      n ∉ seen →
      (∀ j (hj : j < i), (l.get ⟨j, Nat.lt_trans hj h⟩).chapterNumber ≠ some n) →
      mkChapter titles segs dir ext (l.get ⟨i, h⟩) n (l.drop (i + 1)) ∈
        buildChapters titles segs dir ext l seen := by
  intro l
  induction l with
  | nil =>
    intro seen i h
    exact absurd h (by simp)
  | cons m rest ih =>
    intro seen i h n hnum hseen hfirst
    cases i with
    | zero =>
      have hm : m.chapterNumber = some n := hnum
      rw [buildChapters_cons_some titles segs dir ext m rest seen n hm, if_neg hseen]
      exact List.mem_cons_self _ _
    | succ j =>
      have hj : j < rest.length := by
        have := h
        simp only [List.length_cons] at this
        omega
      have hnum' : (rest.get ⟨j, hj⟩).chapterNumber = some n := hnum
      have hfirst' : ∀ j' (hj' : j' < j),
          (rest.get ⟨j', Nat.lt_trans hj' hj⟩).chapterNumber ≠ some n := by
        intro j' hj'
        exact hfirst (j' + 1) (by omega)
      have hm0 : m.chapterNumber ≠ some n := hfirst 0 (Nat.succ_pos j)
      cases hm : m.chapterNumber with
      | none =>
        rw [buildChapters_cons_none titles segs dir ext m rest seen hm]
        exact ih seen j hj n hnum' hseen hfirst'
      | some num =>
        have hne : n ≠ num := by
          intro heq
          apply hm0
          rw [hm, heq]
        rw [buildChapters_cons_some titles segs dir ext m rest seen num hm]
        by_cases hs : num ∈ seen
        · rw [if_pos hs]
          exact ih seen j hj n hnum' hseen hfirst'
        · rw [if_neg hs]
          refine List.mem_cons_of_mem _ (ih (num :: seen) j hj n hnum' ?_ hfirst')
          intro hmem
          rcases List.mem_cons.mp hmem with heq | hmem'
          · exact hne heq
          · exact hseen hmem'

/-- Every chapter dict produced by the loop comes from the first occurrence of
its number in the list. -/
theorem of_mem_buildChapters (titles : List String) (segs : List Segment)
    (dir ext : String) :
    ∀ (l : List Marker) (seen : List Nat) (ch : Chapter),
      ch ∈ buildChapters titles segs dir ext l seen →
      ∃ (i : Nat) (h : i < l.length) (n : Nat),
        (l.get ⟨i, h⟩).chapterNumber = some n ∧ n ∉ seen ∧
        (∀ j (hj : j < i), (l.get ⟨j, Nat.lt_trans hj h⟩).chapterNumber ≠ some n) ∧
        ch = mkChapter titles segs dir ext (l.get ⟨i, h⟩) n (l.drop (i + 1)) := by
  intro l
  induction l with
  | nil =>
    intro seen ch hch
    exact absurd hch (by simp [buildChapters])
  | cons m rest ih =>
    intro seen ch hch
    cases hm : m.chapterNumber with
    | none =>
      rw [buildChapters_cons_none titles segs dir ext m rest seen hm] at hch
      obtain ⟨i, h, n, h1, h2, h3, h4⟩ := ih seen ch hch
      refine ⟨i + 1, by simpa using Nat.succ_lt_succ h, n, h1, h2, ?_, h4⟩
      intro j hj
      cases j with
      | zero =>
        intro hc
        rw [show ((m :: rest).get ⟨0, by simp⟩) = m from rfl, hm] at hc
        cases hc
      | succ j' => exact h3 j' (by omega)
    | some num =>
      rw [buildChapters_cons_some titles segs dir ext m rest seen num hm] at hch
      by_cases hs : num ∈ seen
      · rw [if_pos hs] at hch
        obtain ⟨i, h, n, h1, h2, h3, h4⟩ := ih seen ch hch
        refine ⟨i + 1, by simpa using Nat.succ_lt_succ h, n, h1, h2, ?_, h4⟩
        intro j hj
        cases j with
        | zero =>
          intro hc
          rw [show ((m :: rest).get ⟨0, by simp⟩) = m from rfl, hm] at hc
          have hn : n = num := by
            injection hc with hc'
            exact hc'.symm
          exact (hn ▸ h2) hs
        | succ j' => exact h3 j' (by omega)
      · rw [if_neg hs] at hch
        rcases List.mem_cons.mp hch with rfl | hch'
        · exact ⟨0, by simp, num, hm, hs, by omega, rfl⟩
        · obtain ⟨i, h, n, h1, h2, h3, h4⟩ := ih (num :: seen) ch hch'
          have hn_seen : n ∉ seen := fun hc => h2 (List.mem_cons_of_mem _ hc)
          have hn_num : n ≠ num := fun hc => h2 (hc ▸ List.mem_cons_self _ _)
          refine ⟨i + 1, by simpa using Nat.succ_lt_succ h, n, h1, hn_seen, ?_, h4⟩
          intro j hj
          cases j with
          | zero =>
            intro hc
            rw [show ((m :: rest).get ⟨0, by simp⟩) = m from rfl, hm] at hc
            apply hn_num
            injection hc with hc'
            exact hc'.symm
          | succ j' => exact h3 j' (by omega)

/-- The numbers of the chapters produced by the loop are pairwise distinct and
disjoint from the `seen_chapters` set. -/
theorem buildChapters_numbers_nodup (titles : List String) (segs : List Segment)
    (dir ext : String) :
    ∀ (l : List Marker) (seen : List Nat),
      ((buildChapters titles segs dir ext l seen).map chapter_sort_key).Nodup ∧
      ∀ x ∈ (buildChapters titles segs dir ext l seen).map chapter_sort_key, x ∉ seen := by
  intro l
  induction l with
  | nil =>
    intro seen
    constructor
    · simp [buildChapters]
    · simp [buildChapters]
  | cons m rest ih =>
    intro seen
    cases hm : m.chapterNumber with
    | none =>
      rw [buildChapters_cons_none titles segs dir ext m rest seen hm]
      exact ih seen
    | some num =>
      rw [buildChapters_cons_some titles segs dir ext m rest seen num hm]
      by_cases hs : num ∈ seen
      · rw [if_pos hs]
        exact ih seen
      · rw [if_neg hs]
        rw [List.map_cons, chapter_sort_key_mkChapter]
        obtain ⟨ihnd, ihsub⟩ := ih (num :: seen)
        constructor
        · rw [List.nodup_cons]
          refine ⟨?_, ihnd⟩
          intro hc
          exact (ihsub num hc) (List.mem_cons_self _ _)
        · intro x hx
          rcases List.mem_cons.mp hx with rfl | hx'
          · exact hs
          · intro hc
            exact (ihsub x hx') (List.mem_cons_of_mem _ hc)

/-! ## Helper lemmas: the shape of `split_chapters` -/

theorem find_sections_core_fst (ms : List Marker) :
    (find_sections_core ms).1 = sortByStart ms := rfl

theorem sortByStart_idem (ms : List Marker) : sortByStart (sortByStart ms) = sortByStart ms := by
  have htrans : ∀ (a b c : Marker),
      decide (a.start ≤ b.start) = true → decide (b.start ≤ c.start) = true →
      decide (a.start ≤ c.start) = true := fun a b c h1 h2 =>
    decide_eq_true (le_trans (of_decide_eq_true h1) (of_decide_eq_true h2))
  have htotal : ∀ (a b : Marker),
      (decide (a.start ≤ b.start) || decide (b.start ≤ a.start)) = true := by
    intro a b
    rcases le_total a.start b.start with h | h <;> simp [h]
  exact List.mergeSort_of_sorted (List.sorted_mergeSort htrans htotal ms)

/-- Both outcome branches of `split_chapters` return the same `non_chapters`
report, the one computed by `find_sections`. -/
theorem split_chapters_core_snd (ms : List Marker) (segs : List Segment) (titles : List String)
    (dir ext : String) :
    (split_chapters_core ms segs titles dir ext).2 = (find_sections_core ms).2 := by
  simp only [split_chapters_core]
  split_ifs <;> rfl

/-- The chapter list returned by `split_chapters` is either empty or the
numerically sorted output of the construction loop over the start-sorted
match list. -/
theorem split_chapters_core_fst_eq (ms : List Marker) (segs : List Segment)
    (titles : List String) (dir ext : String) :
    (split_chapters_core ms segs titles dir ext).1 = [] ∨
    (split_chapters_core ms segs titles dir ext).1 =
      sortByNumber (buildChapters titles segs dir ext (sortByStart ms) []) := by
  simp only [split_chapters_core]
  rw [find_sections_core_fst, sortByStart_idem]
  split_ifs
  · exact Or.inl rfl
  · exact Or.inl rfl
  · exact Or.inr rfl

/-- On inputs where a chapter survives, `split_chapters` returns exactly the
numerically sorted loop output. -/
theorem split_chapters_core_fst (ms : List Marker) (segs : List Segment)
    (titles : List String) (dir ext : String)
    (hne : sortByStart ms ≠ [])
    (hch : sortByNumber (buildChapters titles segs dir ext (sortByStart ms) []) ≠ []) :
    (split_chapters_core ms segs titles dir ext).1 =
      sortByNumber (buildChapters titles segs dir ext (sortByStart ms) []) := by
  simp only [split_chapters_core]
  rw [find_sections_core_fst, sortByStart_idem]
  rw [if_neg hne, if_neg hch]

theorem mem_sortByNumber {ch : Chapter} {chs : List Chapter} :
    ch ∈ sortByNumber chs ↔ ch ∈ chs :=
  List.mem_mergeSort

/-! ## Claims about the resolver (C4, C5, C6) -/

/-- C4 (confirmed): a kept chapter marker at index `i` of the sorted full
marker list produces an interval starting at that marker's start whose end is
the start of the marker at index `i+1` — chapter or not — or the last
segment's end (unset without segments) at the last index; consequently, when
markers `i` and `i+1` are both kept, the earlier interval's end equals the
later interval's start. -/
theorem chapter_interval_boundaries (ms : List Marker) (segs : List Segment)
    (titles : List String) (dir ext : String) (i n : Nat)
    (h : i < (sortByStart ms).length)
    (hk : keptAt (sortByStart ms) i h n) :
    (∃ ch ∈ (split_chapters_core ms segs titles dir ext).1,
        ch.chapter = chapterLabel titles n ∧
        ch.start = ((sortByStart ms).get ⟨i, h⟩).start ∧
        ch.endTime = nextBoundary (sortByStart ms) segs (i + 1)) ∧
    (∀ (h2 : i + 1 < (sortByStart ms).length) (n2 : Nat),
        keptAt (sortByStart ms) (i + 1) h2 n2 →
        nextBoundary (sortByStart ms) segs (i + 1) =
          some (((sortByStart ms).get ⟨i + 1, h2⟩).start)) := by
  obtain ⟨hnum, hfirst⟩ := hk
  have hmem : mkChapter titles segs dir ext ((sortByStart ms).get ⟨i, h⟩) n
      ((sortByStart ms).drop (i + 1)) ∈
      buildChapters titles segs dir ext (sortByStart ms) [] :=
    mem_buildChapters_of_kept titles segs dir ext (sortByStart ms) [] i h n hnum
      (by simp) hfirst
  have hmem2 : mkChapter titles segs dir ext ((sortByStart ms).get ⟨i, h⟩) n
      ((sortByStart ms).drop (i + 1)) ∈
      sortByNumber (buildChapters titles segs dir ext (sortByStart ms) []) :=
    mem_sortByNumber.mpr hmem
  have hne : sortByStart ms ≠ [] := by
    intro hc
    rw [hc] at h
    exact absurd h (by simp)
  have hch : sortByNumber (buildChapters titles segs dir ext (sortByStart ms) []) ≠ [] :=
    List.ne_nil_of_mem hmem2
  constructor
  · refine ⟨mkChapter titles segs dir ext ((sortByStart ms).get ⟨i, h⟩) n
      ((sortByStart ms).drop (i + 1)), ?_, rfl, rfl, ?_⟩
    · rw [split_chapters_core_fst ms segs titles dir ext hne hch]
      exact hmem2
    · exact mkChapter_endTime_eq_nextBoundary titles segs dir ext _ n (sortByStart ms) (i + 1)
  · intro h2 n2 _
    unfold nextBoundary
    rw [dif_pos h2]

/-- C5 (confirmed): chapter numbers of the produced intervals are pairwise
distinct, each produced interval comes from the chronologically earliest
marker carrying its number, and discarded repeats contribute nothing to the
report — every reported timestamp stems from a marker without a chapter
number (markers produced by the scanner carry a `chapter N` phrase as their
keyword whenever they carry a number, which is never in the structural set;
this is the hypothesis `hwf`). -/
theorem chapter_numbers_unique (ms : List Marker) (segs : List Segment)
    (titles : List String) (dir ext : String)
    (hwf : ∀ m ∈ ms, m.chapterNumber ≠ none → pyLower (pyStrip m.keyword) ∉ nonChapterKeywords) :
    ((split_chapters_core ms segs titles dir ext).1.map chapter_sort_key).Nodup ∧
    (∀ ch ∈ (split_chapters_core ms segs titles dir ext).1,
        ∃ (i : Nat) (h : i < (sortByStart ms).length),
          keptAt (sortByStart ms) i h (chapter_sort_key ch) ∧
          ch.start = ((sortByStart ms).get ⟨i, h⟩).start) ∧
    (∀ (k : String) (t : ℚ),
        t ∈ lookupTimes (split_chapters_core ms segs titles dir ext).2 k →
        ∃ m ∈ ms, m.chapterNumber = none ∧ m.start = t) := by
  refine ⟨?_, ?_, ?_⟩
  · rcases split_chapters_core_fst_eq ms segs titles dir ext with h | h
    · rw [h]
      simp
    · rw [h]
      have hperm : List.Perm
          ((sortByNumber (buildChapters titles segs dir ext (sortByStart ms) [])).map
            chapter_sort_key)
          ((buildChapters titles segs dir ext (sortByStart ms) []).map chapter_sort_key) :=
        (List.mergeSort_perm _ _).map chapter_sort_key
      exact hperm.nodup_iff.mpr
        (buildChapters_numbers_nodup titles segs dir ext (sortByStart ms) []).1
  · intro ch hch
    rcases split_chapters_core_fst_eq ms segs titles dir ext with h | h
    · rw [h] at hch
      exact absurd hch (by simp)
    · rw [h] at hch
      obtain ⟨i, hi, n, h1, _, h3, h4⟩ :=
        of_mem_buildChapters titles segs dir ext (sortByStart ms) [] ch
          (mem_sortByNumber.mp hch)
      have hkey : chapter_sort_key ch = n := by
        rw [h4]
        exact chapter_sort_key_mkChapter titles segs dir ext _ n _
      refine ⟨i, hi, ?_, ?_⟩
      · rw [hkey]
        exact ⟨h1, h3⟩
      · rw [h4]
        rfl
  · intro k t ht
    rw [split_chapters_core_snd, find_sections_core_snd, mem_lookupTimes_foldl] at ht
    rcases ht with hbase | ⟨m', hm', hkeep, _, hstart⟩
    · exact absurd hbase (by simp [lookupTimes_nil])
    · have h14 := keepAnomaly_mem_nonChapter hkeep
      have hmem : m' ∈ ms := mem_sortByStart.mp hm'
      refine ⟨m', hmem, ?_, hstart⟩
      by_contra hnone
      exact (hwf m' hmem hnone) h14

/-- C6 (confirmed): the returned chapter intervals are sorted strictly
ascending by the numeric sort key parsed from their labels, independently of
the chronological order of the markers. -/
theorem chapters_sorted_ascending (ms : List Marker) (segs : List Segment)
    (titles : List String) (dir ext : String) :
    ((split_chapters_core ms segs titles dir ext).1).Pairwise
      (fun a b => chapter_sort_key a < chapter_sort_key b) := by
  rcases split_chapters_core_fst_eq ms segs titles dir ext with h | h
  · rw [h]
    exact List.Pairwise.nil
  · rw [h]
    have htrans : ∀ (a b c : Chapter),
        decide (chapter_sort_key a ≤ chapter_sort_key b) = true →
        decide (chapter_sort_key b ≤ chapter_sort_key c) = true →
        decide (chapter_sort_key a ≤ chapter_sort_key c) = true := fun a b c h1 h2 =>
      decide_eq_true (le_trans (of_decide_eq_true h1) (of_decide_eq_true h2))
    have htotal : ∀ (a b : Chapter),
        (decide (chapter_sort_key a ≤ chapter_sort_key b) ||
          decide (chapter_sort_key b ≤ chapter_sort_key a)) = true := by
      intro a b
      rcases le_total (chapter_sort_key a) (chapter_sort_key b) with hab | hab <;> simp [hab]
    have hle : (sortByNumber (buildChapters titles segs dir ext (sortByStart ms) [])).Pairwise
        (fun a b => chapter_sort_key a ≤ chapter_sort_key b) :=
      (List.sorted_mergeSort htrans htotal _).imp (fun hd => of_decide_eq_true hd)
    have hperm : List.Perm
        ((sortByNumber (buildChapters titles segs dir ext (sortByStart ms) [])).map
          chapter_sort_key)
        ((buildChapters titles segs dir ext (sortByStart ms) []).map chapter_sort_key) :=
      (List.mergeSort_perm _ _).map chapter_sort_key
    have hnd : ((sortByNumber (buildChapters titles segs dir ext (sortByStart ms) [])).map
        chapter_sort_key).Nodup :=
      hperm.nodup_iff.mpr (buildChapters_numbers_nodup titles segs dir ext (sortByStart ms) []).1
    have hne : (sortByNumber (buildChapters titles segs dir ext (sortByStart ms) [])).Pairwise
        (fun a b => chapter_sort_key a ≠ chapter_sort_key b) := List.pairwise_map.mp hnd
    exact (hle.and hne).imp (fun hd => lt_of_le_of_ne hd.1 hd.2)

/-- C9 (amended): every produced interval's number is the chapter number
spoken in some input marker — a nonnegative integer, with no lower bound of 1
enforced anywhere. -/
theorem chapter_number_from_marker (ms : List Marker) (segs : List Segment)
    (titles : List String) (dir ext : String) :
    ∀ ch ∈ (split_chapters_core ms segs titles dir ext).1,
      ∃ m ∈ ms, m.chapterNumber = some (chapter_sort_key ch) := by
  intro ch hch
  rcases split_chapters_core_fst_eq ms segs titles dir ext with h | h
  · rw [h] at hch
    exact absurd hch (by simp)
  · rw [h] at hch
    obtain ⟨i, hi, n, h1, _, _, h4⟩ :=
      of_mem_buildChapters titles segs dir ext (sortByStart ms) [] ch
        (mem_sortByNumber.mp hch)
    have hkey : chapter_sort_key ch = n := by
      rw [h4]
      exact chapter_sort_key_mkChapter titles segs dir ext _ n _
    refine ⟨(sortByStart ms).get ⟨i, hi⟩, mem_sortByStart.mp (List.get_mem _ _ _), ?_⟩
    rw [hkey]
    exact h1

/-- C9 counterexample: a spoken `chapter 0` yields an output interval whose
number is 0, contradicting the claimed invariant `number >= 1`. -/
theorem chapter_zero_cex :
    ((split_chapters_core [⟨1, 2, "chapter 0", "chapter 0", some 0⟩] [⟨0, 5, "x"⟩]
        [] "" ".mp3").1).map chapter_sort_key = [0] := by
  have hs : sortByStart [⟨1, 2, "chapter 0", "chapter 0", some 0⟩] =
      [⟨1, 2, "chapter 0", "chapter 0", some 0⟩] := sortByStart_of_sorted (by decide)
  have hbuild : buildChapters [] [⟨0, 5, "x"⟩] "" ".mp3"
      [⟨1, 2, "chapter 0", "chapter 0", some 0⟩] [] =
      [mkChapter [] [⟨0, 5, "x"⟩] "" ".mp3" ⟨1, 2, "chapter 0", "chapter 0", some 0⟩ 0 []] := by
    rw [buildChapters_cons_some [] [⟨0, 5, "x"⟩] "" ".mp3" _ _ [] 0 rfl]
    rw [if_neg (by decide)]
    rfl
  have hsn : sortByNumber
      [mkChapter [] [⟨0, 5, "x"⟩] "" ".mp3" ⟨1, 2, "chapter 0", "chapter 0", some 0⟩ 0 []] =
      [mkChapter [] [⟨0, 5, "x"⟩] "" ".mp3" ⟨1, 2, "chapter 0", "chapter 0", some 0⟩ 0 []] :=
    List.mergeSort_singleton _
  have hne : sortByStart [⟨1, 2, "chapter 0", "chapter 0", some 0⟩] ≠ [] := by
    rw [hs]
    simp
  have hch : sortByNumber (buildChapters [] [⟨0, 5, "x"⟩] "" ".mp3"
      (sortByStart [⟨1, 2, "chapter 0", "chapter 0", some 0⟩]) []) ≠ [] := by
    rw [hs, hbuild, hsn]
    simp
  rw [split_chapters_core_fst _ _ _ _ _ hne hch, hs, hbuild, hsn]
  rw [List.map_cons, chapter_sort_key_mkChapter]
  rfl

/-! ## Claim C8: error behaviour -/

theorem mkChapter_segs_invariant (titles : List String) (dir ext : String) (m : Marker)
    (num : Nat) (rest : List Marker) (s1 s2 : List Segment)
    (h : s1.getLast?.map Segment.stop = s2.getLast?.map Segment.stop) :
    mkChapter titles s1 dir ext m num rest = mkChapter titles s2 dir ext m num rest := by
  unfold mkChapter
  cases rest with
  | cons m2 tail => rfl
  | nil =>
    have e1 : (match s1.getLast? with
        | some seg => some seg.stop
        | none => none) = s1.getLast?.map Segment.stop := by
      cases s1.getLast? <;> rfl
    have e2 : (match s2.getLast? with
        | some seg => some seg.stop
        | none => none) = s2.getLast?.map Segment.stop := by
      cases s2.getLast? <;> rfl
    have : (match ([] : List Marker) with
        | m2 :: _ => some m2.start
        | [] =>
          match s1.getLast? with
          | some seg => some seg.stop
          | none => none) =
        (match ([] : List Marker) with
        | m2 :: _ => some m2.start
        | [] =>
          match s2.getLast? with
          | some seg => some seg.stop
          | none => none) := by
      show (match s1.getLast? with
          | some seg => some seg.stop
          | none => none) =
        (match s2.getLast? with
          | some seg => some seg.stop
          | none => none)
      rw [e1, e2, h]
    rw [this]

theorem buildChapters_segs_invariant (titles : List String) (dir ext : String)
    (s1 s2 : List Segment)
    (h : s1.getLast?.map Segment.stop = s2.getLast?.map Segment.stop) :
    ∀ (l : List Marker) (seen : List Nat),
      buildChapters titles s1 dir ext l seen = buildChapters titles s2 dir ext l seen := by
  intro l
  induction l with
  | nil =>
    intro seen
    rfl
  | cons m rest ih =>
    intro seen
    cases hm : m.chapterNumber with
    | none =>
      rw [buildChapters_cons_none titles s1 dir ext m rest seen hm,
        buildChapters_cons_none titles s2 dir ext m rest seen hm]
      exact ih seen
    | some num =>
      rw [buildChapters_cons_some titles s1 dir ext m rest seen num hm,
        buildChapters_cons_some titles s2 dir ext m rest seen num hm]
      by_cases hs : num ∈ seen
      · rw [if_pos hs, if_pos hs]
        exact ih seen
      · rw [if_neg hs, if_neg hs]
        rw [mkChapter_segs_invariant titles dir ext m num rest s1 s2 h, ih (num :: seen)]

/-- C8 (amended): the engine raises no fatal error on any input — it is a
total function.  In particular it performs no input-shape validation:
transcripts whose segments are defective (for example `end < start`) are
processed exactly like any transcript with the same final segment end, and an
empty transcript yields the normal empty outcome, never an error. -/
theorem engine_tolerates_defective_segments (ms : List Marker) (s1 s2 : List Segment)
    (titles : List String) (dir ext : String)
    (h : s1.getLast?.map Segment.stop = s2.getLast?.map Segment.stop) :
    split_chapters_core ms s1 titles dir ext = split_chapters_core ms s2 titles dir ext ∧
    split_chapters_core [] s1 titles dir ext = ([], []) := by
  constructor
  · simp only [split_chapters_core]
    rw [buildChapters_segs_invariant titles dir ext s1 s2 h]
  · have h0 : sortByStart ([] : List Marker) = [] := List.mergeSort_nil
    simp only [split_chapters_core]
    rw [find_sections_core_fst, h0]
    rw [if_pos rfl]
    rw [find_sections_core_snd, h0]
    rfl

/-- C8 counterexample: a transcript whose only segment has `end < start`
(here `start = 10`, `end = 5`) is not rejected in any way: `split_chapters`
returns a normal chapter list and an empty report, with no error of any
kind. -/
theorem defective_segment_cex :
    (split_chapters_core [⟨1, 2, "chapter 1", "chapter 1", some 1⟩] [⟨10, 5, "x"⟩]
        [] "" ".m4b").1 = [⟨"Chapter 1", 1, some 5, "/Chapter 1.m4b"⟩]
    ∧ (split_chapters_core [⟨1, 2, "chapter 1", "chapter 1", some 1⟩] [⟨10, 5, "x"⟩]
        [] "" ".m4b").2 = [] := by
  have hs : sortByStart [⟨1, 2, "chapter 1", "chapter 1", some 1⟩] =
      [⟨1, 2, "chapter 1", "chapter 1", some 1⟩] := sortByStart_of_sorted (by decide)
  constructor
  swap
  · rw [split_chapters_core_snd, find_sections_core_snd, hs]
    decide
  ·
    have hbuild : buildChapters [] [⟨10, 5, "x"⟩] "" ".m4b"
        [⟨1, 2, "chapter 1", "chapter 1", some 1⟩] [] =
        [mkChapter [] [⟨10, 5, "x"⟩] "" ".m4b" ⟨1, 2, "chapter 1", "chapter 1", some 1⟩ 1 []] := by
      rw [buildChapters_cons_some [] [⟨10, 5, "x"⟩] "" ".m4b" _ _ [] 1 rfl]
      rw [if_neg (by decide)]
      rfl
    have hsn : sortByNumber
        [mkChapter [] [⟨10, 5, "x"⟩] "" ".m4b" ⟨1, 2, "chapter 1", "chapter 1", some 1⟩ 1 []] =
        [mkChapter [] [⟨10, 5, "x"⟩] "" ".m4b" ⟨1, 2, "chapter 1", "chapter 1", some 1⟩ 1 []] :=
      List.mergeSort_singleton _
    have hne : sortByStart [⟨1, 2, "chapter 1", "chapter 1", some 1⟩] ≠ [] := by
      rw [hs]
      simp
    have hch : sortByNumber (buildChapters [] [⟨10, 5, "x"⟩] "" ".m4b"
        (sortByStart [⟨1, 2, "chapter 1", "chapter 1", some 1⟩]) []) ≠ [] := by
      rw [hs, hbuild, hsn]
      simp
    rw [split_chapters_core_fst _ _ _ _ _ hne hch, hs, hbuild, hsn]
    decide

/-! ## Helper lemmas: the scanner and the restricted pattern (C10) -/

theorem map_toLower_eq_self_of_digits {ds : List Char}
    (h : ∀ c ∈ ds, c.isDigit = true) : ds.map Char.toLower = ds := by
  induction ds with
  | nil => rfl
  | cons c cs ih =>
    rw [List.map_cons, toLower_of_isDigit (h c (List.mem_cons_self _ _)),
      ih (fun c' hc' => h c' (List.mem_cons_of_mem _ hc'))]

theorem matchLit_spec : ∀ (p cs m r : List Char), matchLit p cs = some (m, r) →
    m.map Char.toLower = p := by
  intro p
  induction p with
  | nil =>
    intro cs m r h
    simp only [matchLit, Option.some.injEq, Prod.mk.injEq] at h
    rw [← h.1]
    rfl
  | cons pc ps ih =>
    intro cs m r h
    cases cs with
    | nil => exact absurd h (by simp [matchLit])
    | cons c cs' =>
      unfold matchLit at h
      by_cases hc : c.toLower = pc
      · rw [if_pos hc] at h
        cases hml : matchLit ps cs' with
        | none =>
          rw [hml] at h
          cases h
        | some pr =>
          obtain ⟨m', r'⟩ := pr
          rw [hml] at h
          simp only [Option.some.injEq, Prod.mk.injEq] at h
          rw [← h.1, List.map_cons, hc, ih cs' m' r' hml]
      · rw [if_neg hc] at h
        cases h

theorem matchChapter_spec (cs : List Char) (m : List Char) (num : Option Nat) (r : List Char)
    (h : matchChapter cs = some ((m, num), r)) :
    ∃ ds, ds ≠ [] ∧ (∀ c ∈ ds, c.isDigit = true) ∧
      m.map Char.toLower = "chapter ".data ++ ds ∧ num = some (digitsToNat ds) := by
  unfold matchChapter at h
  cases hml : matchLit "chapter ".data cs with
  | none =>
    rw [hml] at h
    cases h
  | some pr =>
    obtain ⟨mlit, rest⟩ := pr
    rw [hml] at h
    have h' : (if rest.takeWhile Char.isDigit = [] then none
        else some ((mlit ++ rest.takeWhile Char.isDigit,
          some (digitsToNat (rest.takeWhile Char.isDigit))), rest.dropWhile Char.isDigit))
        = some ((m, num), r) := h
    by_cases hds : rest.takeWhile Char.isDigit = []
    · rw [if_pos hds] at h'
      cases h'
    · rw [if_neg hds] at h'
      simp only [Option.some.injEq, Prod.mk.injEq] at h'
      have hdig : ∀ c ∈ rest.takeWhile Char.isDigit, c.isDigit = true :=
        fun c hc => List.mem_takeWhile_imp hc
      refine ⟨rest.takeWhile Char.isDigit, hds, hdig, ?_, h'.1.2.symm⟩
      rw [← h'.1.1, List.map_append, matchLit_spec _ _ _ _ hml,
        map_toLower_eq_self_of_digits hdig]

theorem matchKeywords_spec : ∀ (kws : List String) (cs m : List Char) (num : Option Nat)
    (r : List Char), matchKeywords kws cs = some ((m, num), r) →
    num = none ∧ ∃ w ∈ kws, m.map Char.toLower = w.data := by
  intro kws
  induction kws with
  | nil =>
    intro cs m num r h
    cases h
  | cons k ks ih =>
    intro cs m num r h
    unfold matchKeywords at h
    cases hml : matchLit k.data cs with
    | some pr =>
      obtain ⟨m', r'⟩ := pr
      rw [hml] at h
      simp only [Option.some.injEq, Prod.mk.injEq] at h
      refine ⟨h.1.2.symm, k, List.mem_cons_self _ _, ?_⟩
      rw [← h.1.1]
      exact matchLit_spec _ _ _ _ hml
    | none =>
      rw [hml] at h
      obtain ⟨h1, w, hw, h2⟩ := ih cs m num r h
      exact ⟨h1, w, List.mem_cons_of_mem _ hw, h2⟩

theorem matchAlt_spec (kws : List String) (cs m : List Char) (num : Option Nat)
    (r : List Char) (h : matchAlt kws cs = some ((m, num), r)) :
    (∃ ds, ds ≠ [] ∧ (∀ c ∈ ds, c.isDigit = true) ∧
      m.map Char.toLower = "chapter ".data ++ ds ∧ num = some (digitsToNat ds)) ∨
    (num = none ∧ ∃ w ∈ kws, m.map Char.toLower = w.data) := by
  unfold matchAlt at h
  cases hmc : matchChapter cs with
  | some pr =>
    rw [hmc] at h
    obtain ⟨⟨m', num'⟩, r'⟩ := pr
    simp only [Option.some.injEq, Prod.mk.injEq] at h
    rw [← h.1.1, ← h.1.2]
    exact Or.inl (matchChapter_spec cs m' num' r' hmc)
  | none =>
    rw [hmc] at h
    exact Or.inr (matchKeywords_spec kws cs m num r h)

theorem scanTextFuel_spec (kws : List String) : ∀ (fuel : Nat) (cs : List Char)
    (s : String) (num : Option Nat), (s, num) ∈ scanTextFuel kws fuel cs →
    (∃ ds, ds ≠ [] ∧ (∀ c ∈ ds, c.isDigit = true) ∧
      s.data.map Char.toLower = "chapter ".data ++ ds ∧ num = some (digitsToNat ds)) ∨
    (num = none ∧ ∃ w ∈ kws, s.data.map Char.toLower = w.data) := by
  intro fuel
  induction fuel with
  | zero =>
    intro cs s num h
    cases h
  | succ fuel ih =>
    intro cs s num h
    cases cs with
    | nil => cases h
    | cons c cs' =>
      unfold scanTextFuel at h
      cases hma : matchAlt kws (c :: cs') with
      | some pr =>
        obtain ⟨⟨m, num'⟩, rest⟩ := pr
        rw [hma] at h
        rcases List.mem_cons.mp h with heq | hmem
        · have hs : s = ⟨m⟩ ∧ num = num' := by
            injection heq with h1 h2
            exact ⟨h1, h2⟩
          obtain ⟨rfl, rfl⟩ := hs
          exact matchAlt_spec kws (c :: cs') m _ rest hma
        · exact ih rest s num hmem
      | none =>
        rw [hma] at h
        exact ih cs' s num h

/-- Every marker produced by the scanner either carries a chapter number
together with a `chapter <digits>` keyword phrase, or carries no number and a
keyword phrase that lower-cases to one of the pattern's keywords. -/
theorem scanSegments_spec (kws : List String) (segs : List Segment) (m : Marker)
    (hm : m ∈ scanSegments kws segs) :
    (∃ ds, ds ≠ [] ∧ (∀ c ∈ ds, c.isDigit = true) ∧
      m.keyword.data.map Char.toLower = "chapter ".data ++ ds ∧
      m.chapterNumber = some (digitsToNat ds)) ∨
    (m.chapterNumber = none ∧ ∃ w ∈ kws, m.keyword.data.map Char.toLower = w.data) := by
  unfold scanSegments at hm
  obtain ⟨seg, _, hmem⟩ := List.mem_flatMap.mp hm
  obtain ⟨p, hp, hpm⟩ := List.mem_map.mp hmem
  obtain ⟨s, num⟩ := p
  have hk : m.keyword = s := by rw [← hpm]
  have hn : m.chapterNumber = num := by rw [← hpm]
  rw [hk, hn]
  exact scanTextFuel_spec kws _ _ s num hp

theorem not_ws_of_toLower_eq {c d : Char} (h : c.toLower = d)
    (hd : d.isWhitespace = false) : c.isWhitespace = false := by
  cases hws : c.isWhitespace
  · rfl
  · rw [toLower_of_isWhitespace hws] at h
    rw [h] at hws
    rw [hws] at hd
    cases hd

theorem stripChars_eq_self_of_ends (l : List Char)
    (hh : ∀ c, l.head? = some c → c.isWhitespace = false)
    (hl : ∀ c, l.getLast? = some c → c.isWhitespace = false) :
    stripChars l = l := by
  unfold stripChars
  have h1 : l.dropWhile Char.isWhitespace = l := by
    cases l with
    | nil => rfl
    | cons c cs =>
      rw [List.dropWhile_cons_of_neg]
      simp [hh c rfl]
  rw [h1]
  have h2 : l.reverse.dropWhile Char.isWhitespace = l.reverse := by
    cases hrev : l.reverse with
    | nil => rfl
    | cons c cs =>
      rw [List.dropWhile_cons_of_neg]
      have hlast : l.getLast? = some c := by
        rw [List.getLast?_eq_head?_reverse, hrev]
        rfl
      simp [hl c hlast]
  rw [h2, List.reverse_reverse]

/-- A string whose lower-casing is a whitespace-free word is unchanged by
stripping. -/
theorem pyStrip_eq_self_of_map_all {s : String} {d : List Char}
    (hmap : s.data.map Char.toLower = d)
    (hws : ∀ c ∈ d, c.isWhitespace = false) : pyStrip s = s := by
  have hall : ∀ c ∈ s.data, c.isWhitespace = false := no_ws_of_map_toLower hmap hws
  show (⟨stripChars s.data⟩ : String) = s
  rw [stripChars_eq_self hall]

/-- A scanner keyword marker is unchanged by stripping and lower-cases to the
pattern word it matched. -/
theorem keyword_marker_kwl {s : String} {w : String}
    (hmap : s.data.map Char.toLower = w.data)
    (hws : ∀ c ∈ w.data, c.isWhitespace = false) :
    pyStrip s = s ∧ pyLower s = w := by
  refine ⟨pyStrip_eq_self_of_map_all hmap hws, ?_⟩
  show (⟨s.data.map Char.toLower⟩ : String) = w
  rw [hmap]

/-- A scanner `chapter N` marker is unchanged by stripping (it begins with a
letter and ends with a digit), and its stripped lower-casing starts with the
characters `c`, `h`. -/
theorem chapter_marker_kwl {s : String} {ds : List Char}
    (hds : ds ≠ []) (hdig : ∀ c ∈ ds, c.isDigit = true)
    (hmap : s.data.map Char.toLower = "chapter ".data ++ ds) :
    (pyLower (pyStrip s)).data.take 2 = ['c', 'h'] := by
  have hstrip : stripChars s.data = s.data := by
    refine stripChars_eq_self_of_ends s.data ?_ ?_
    · intro c hc
      have hhead : (s.data.map Char.toLower).head? = some c.toLower := by
        rw [List.head?_map, hc]
        rfl
      rw [hmap] at hhead
      have hc' : c.toLower = 'c' := by
        have hcc : ("chapter ".data ++ ds).head? = some 'c' := rfl
        rw [hcc] at hhead
        injection hhead with h'
        exact h'.symm
      exact not_ws_of_toLower_eq hc' (by decide)
    · intro c hc
      have hlast : (s.data.map Char.toLower).getLast? = some c.toLower := by
        rw [List.getLast?_map, hc]
        rfl
      rw [hmap] at hlast
      cases hdl : ds.getLast? with
      | none => exact absurd (List.getLast?_eq_none_iff.mp hdl) hds
      | some dl =>
        have hdl_mem : dl ∈ ds := List.mem_of_mem_getLast? (by rw [hdl]; rfl)
        have happ : ("chapter ".data ++ ds).getLast? = some dl := by
          rw [List.getLast?_append, hdl]
          rfl
        rw [happ] at hlast
        have hc' : c.toLower = dl := by
          injection hlast with h'
          exact h'.symm
        cases hws : c.isWhitespace
        · rfl
        · rw [toLower_of_isWhitespace hws] at hc'
          rw [hc'] at hws
          have hdf : dl.isDigit = false := not_isDigit_of_isWhitespace hws
          rw [hdig dl hdl_mem] at hdf
          cases hdf
  show ((⟨stripChars s.data⟩ : String).data.map Char.toLower).take 2 = ['c', 'h']
  rw [hstrip]
  show (s.data.map Char.toLower).take 2 = ['c', 'h']
  rw [hmap]
  rfl

theorem split_chapters_eq_core (segs : List Segment) (titles : List String)
    (dir ext : String) :
    split_chapters segs titles dir ext =
      split_chapters_core (scanSegments splitterKeywords segs) segs titles dir ext := rfl

/-- C10 (confirmed): through the `split_chapters` entry point the scanner runs
with the restricted five-keyword pattern, so every scanned marker is either a
numbered chapter or one of introduction, prologue, epilogue, preface,
conclusion; no marker lower-cases into the nine omitted default keywords, and
every report entry originates from one of the five keywords.  The omitted
nine are exactly default-pattern keywords absent from the restricted
pattern. -/
theorem restricted_pattern_excludes (segs : List Segment) (titles : List String)
    (dir ext : String) :
    (∀ m ∈ scanSegments splitterKeywords segs,
        m.chapterNumber = none → pyLower m.keyword ∈ splitterKeywords) ∧
    (∀ m ∈ scanSegments splitterKeywords segs,
        pyLower (pyStrip m.keyword) ∉ excludedKeywords) ∧
    (∀ (k : String) (t : ℚ),
        t ∈ lookupTimes (split_chapters segs titles dir ext).2 k →
        ∃ m ∈ scanSegments splitterKeywords segs,
          pyLower (pyStrip m.keyword) ∈ splitterKeywords ∧ m.start = t) ∧
    ((∀ w ∈ excludedKeywords, w ∈ defaultKeywords ∧ w ∉ splitterKeywords) ∧
      defaultKeywords.length = 14 ∧ splitterKeywords.length = 5) := by
  have hws5 : ∀ w ∈ splitterKeywords, ∀ c ∈ w.data, c.isWhitespace = false := by decide
  have hkwl : ∀ m ∈ scanSegments splitterKeywords segs,
      (pyLower (pyStrip m.keyword)).data.take 2 = ['c', 'h'] ∨
      (pyStrip m.keyword = m.keyword ∧ m.chapterNumber = none ∧
        pyLower m.keyword ∈ splitterKeywords) := by
    intro m hm
    rcases scanSegments_spec splitterKeywords segs m hm with
      ⟨ds, hds, hdig, hmap, _⟩ | ⟨hnone, w, hw, hmap⟩
    · exact Or.inl (chapter_marker_kwl hds hdig hmap)
    · obtain ⟨hstrip, hlow⟩ := keyword_marker_kwl hmap (hws5 w hw)
      exact Or.inr ⟨hstrip, hnone, by rw [hlow]; exact hw⟩
  refine ⟨?_, ?_, ?_, by decide⟩
  · intro m hm hnone
    rcases scanSegments_spec splitterKeywords segs m hm with
      ⟨_, _, _, _, hnum⟩ | ⟨_, w, hw, hmap⟩
    · rw [hnone] at hnum
      cases hnum
    · have := (keyword_marker_kwl hmap (hws5 w hw)).2
      rw [this]
      exact hw
  · intro m hm
    rcases hkwl m hm with htake | ⟨hstrip, _, hlow⟩
    · intro hc
      have hnoEx : ∀ w ∈ excludedKeywords, ¬ (w.data.take 2 = ['c', 'h']) := by decide
      exact hnoEx _ hc htake
    · rw [hstrip]
      have hdisj : ∀ w ∈ splitterKeywords, w ∉ excludedKeywords := by decide
      exact hdisj _ hlow
  · intro k t ht
    rw [split_chapters_eq_core, split_chapters_core_snd, find_sections_core_snd,
      mem_lookupTimes_foldl] at ht
    rcases ht with hbase | ⟨m', hm', hkeep, _, hstart⟩
    · exact absurd hbase (by simp [lookupTimes_nil])
    · have h14 := keepAnomaly_mem_nonChapter hkeep
      have hmem : m' ∈ scanSegments splitterKeywords segs := mem_sortByStart.mp hm'
      rcases hkwl m' hmem with htake | ⟨hstrip, _, hlow⟩
      · have hno14 : ∀ w ∈ nonChapterKeywords, ¬ (w.data.take 2 = ['c', 'h']) := by decide
        exact absurd htake (hno14 _ h14)
      · refine ⟨m', hmem, ?_, hstart⟩
        rw [hstrip]
        exact hlow

/-! ## Witnesses: each claim theorem applied at a concrete instance -/

theorem keptAt_congr {l l' : List Marker} (he : l = l') (i n : Nat)
    (h : i < l.length) (h' : i < l'.length) :
    keptAt l' i h' n → keptAt l i h n := by
  subst he
  intro x
  exact x

theorem front_matter_reported_iff_witness :
    (5 : ℚ) ∈ lookupTimes (find_sections_core
      [⟨5, 6, "t", "prologue", none⟩, ⟨20, 21, "t", "chapter 1", some 1⟩]).2
      (pyCapitalize (pyStrip "prologue")) :=
  (front_matter_reported_iff
      [⟨5, 6, "t", "prologue", none⟩, ⟨20, 21, "t", "chapter 1", some 1⟩] 20
      ⟨5, 6, "t", "prologue", none⟩
      (by rw [sortByStart_of_sorted (by decide)]; decide)
      (by decide) (by decide)).mpr (by decide)

theorem back_matter_reported_iff_witness :
    (30 : ℚ) ∈ lookupTimes (find_sections_core
      [⟨20, 21, "t", "chapter 1", some 1⟩, ⟨30, 31, "t", "epilogue", none⟩]).2
      (pyCapitalize (pyStrip "epilogue")) :=
  (back_matter_reported_iff
      [⟨20, 21, "t", "chapter 1", some 1⟩, ⟨30, 31, "t", "epilogue", none⟩] 20
      ⟨30, 31, "t", "epilogue", none⟩
      (by rw [sortByStart_of_sorted (by decide)]; decide)
      (by decide) (by decide)).mpr (by decide)

theorem either_end_reported_iff_witness :
    (15 : ℚ) ∈ lookupTimes (find_sections_core
      [⟨15, 16, "t", "dedication", none⟩, ⟨20, 21, "t", "chapter 1", some 1⟩,
       ⟨100, 101, "t", "chapter 2", some 2⟩]).2
      (pyCapitalize (pyStrip "dedication")) :=
  (either_end_reported_iff
      [⟨15, 16, "t", "dedication", none⟩, ⟨20, 21, "t", "chapter 1", some 1⟩,
       ⟨100, 101, "t", "chapter 2", some 2⟩] 20 100
      ⟨15, 16, "t", "dedication", none⟩
      (by rw [sortByStart_of_sorted (by decide)]; decide)
      (by rw [sortByStart_of_sorted (by decide)]; decide)
      (by decide) (by decide)).mpr (by decide)

theorem no_chapters_all_reported_witness :
    (10 : ℚ) ∈ lookupTimes (find_sections_core [⟨10, 11, "t", "glossary", none⟩]).2
      (pyCapitalize (pyStrip "glossary")) :=
  no_chapters_all_reported [⟨10, 11, "t", "glossary", none⟩]
    ⟨10, 11, "t", "glossary", none⟩ (by decide) (by decide) (by decide)

theorem chapter_interval_boundaries_witness :
    ∃ ch ∈ (split_chapters_core
      [⟨0, 1, "t", "chapter 1", some 1⟩, ⟨10, 11, "t", "chapter 2", some 2⟩]
      [⟨0, 12, "x"⟩] [] "" ".m4b").1, ch.chapter = chapterLabel [] 1 := by
  have hs : sortByStart
      [⟨0, 1, "t", "chapter 1", some 1⟩, ⟨10, 11, "t", "chapter 2", some 2⟩] =
      [⟨0, 1, "t", "chapter 1", some 1⟩, ⟨10, 11, "t", "chapter 2", some 2⟩] :=
    sortByStart_of_sorted (by decide)
  have h : 0 < (sortByStart
      [⟨0, 1, "t", "chapter 1", some 1⟩, ⟨10, 11, "t", "chapter 2", some 2⟩]).length := by
    rw [hs]
    decide
  have hk : keptAt (sortByStart
      [⟨0, 1, "t", "chapter 1", some 1⟩, ⟨10, 11, "t", "chapter 2", some 2⟩]) 0 h 1 :=
    keptAt_congr hs 0 1 h (by decide) (by decide)
  obtain ⟨⟨ch, hmem, hlab, _, _⟩, _⟩ :=
    chapter_interval_boundaries
      [⟨0, 1, "t", "chapter 1", some 1⟩, ⟨10, 11, "t", "chapter 2", some 2⟩]
      [⟨0, 12, "x"⟩] [] "" ".m4b" 0 1 h hk
  exact ⟨ch, hmem, hlab⟩

theorem chapter_numbers_unique_witness :
    ((split_chapters_core
      [⟨1, 2, "t", "chapter 3", some 3⟩, ⟨2, 3, "t", "chapter 3", some 3⟩,
       ⟨3, 4, "t", "chapter 5", some 5⟩, ⟨4, 5, "t", "chapter 3", some 3⟩]
      [⟨0, 9, "x"⟩] [] "" ".m4b").1.map chapter_sort_key).Nodup :=
  (chapter_numbers_unique
    [⟨1, 2, "t", "chapter 3", some 3⟩, ⟨2, 3, "t", "chapter 3", some 3⟩,
     ⟨3, 4, "t", "chapter 5", some 5⟩, ⟨4, 5, "t", "chapter 3", some 3⟩]
    [⟨0, 9, "x"⟩] [] "" ".m4b" (by decide)).1

theorem chapter_number_from_marker_witness :
    ∃ m ∈ [(⟨1, 2, "chapter 2", "chapter 2", some 2⟩ : Marker)],
      m.chapterNumber =
        some (chapter_sort_key ⟨"Chapter 2", 1, some 5, "/Chapter 2.m4b"⟩) := by
  have hs : sortByStart [⟨1, 2, "chapter 2", "chapter 2", some 2⟩] =
      [⟨1, 2, "chapter 2", "chapter 2", some 2⟩] := sortByStart_of_sorted (by decide)
  have hbuild : buildChapters [] [⟨0, 5, "x"⟩] "" ".m4b"
      [⟨1, 2, "chapter 2", "chapter 2", some 2⟩] [] =
      [mkChapter [] [⟨0, 5, "x"⟩] "" ".m4b" ⟨1, 2, "chapter 2", "chapter 2", some 2⟩ 2 []] := by
    rw [buildChapters_cons_some [] [⟨0, 5, "x"⟩] "" ".m4b" _ _ [] 2 rfl]
    rw [if_neg (by decide)]
    rfl
  have hsn : sortByNumber
      [mkChapter [] [⟨0, 5, "x"⟩] "" ".m4b" ⟨1, 2, "chapter 2", "chapter 2", some 2⟩ 2 []] =
      [mkChapter [] [⟨0, 5, "x"⟩] "" ".m4b" ⟨1, 2, "chapter 2", "chapter 2", some 2⟩ 2 []] :=
    List.mergeSort_singleton _
  have hne : sortByStart [⟨1, 2, "chapter 2", "chapter 2", some 2⟩] ≠ [] := by
    rw [hs]
    simp
  have hch : sortByNumber (buildChapters [] [⟨0, 5, "x"⟩] "" ".m4b"
      (sortByStart [⟨1, 2, "chapter 2", "chapter 2", some 2⟩]) []) ≠ [] := by
    rw [hs, hbuild, hsn]
    simp
  have hout : (split_chapters_core [⟨1, 2, "chapter 2", "chapter 2", some 2⟩]
      [⟨0, 5, "x"⟩] [] "" ".m4b").1 =
      [(⟨"Chapter 2", 1, some 5, "/Chapter 2.m4b"⟩ : Chapter)] := by
    rw [split_chapters_core_fst _ _ _ _ _ hne hch, hs, hbuild, hsn]
    decide
  have hmem : (⟨"Chapter 2", 1, some 5, "/Chapter 2.m4b"⟩ : Chapter) ∈
      (split_chapters_core [⟨1, 2, "chapter 2", "chapter 2", some 2⟩]
        [⟨0, 5, "x"⟩] [] "" ".m4b").1 := by
    rw [hout]
    exact List.mem_cons_self _ _
  exact chapter_number_from_marker [⟨1, 2, "chapter 2", "chapter 2", some 2⟩]
    [⟨0, 5, "x"⟩] [] "" ".m4b" ⟨"Chapter 2", 1, some 5, "/Chapter 2.m4b"⟩ hmem

theorem engine_tolerates_defective_segments_witness :
    split_chapters_core [⟨1, 2, "chapter 1", "chapter 1", some 1⟩] [⟨10, 5, "x"⟩]
        [] "" ".m4b" =
      split_chapters_core [⟨1, 2, "chapter 1", "chapter 1", some 1⟩] [⟨0, 5, "x"⟩]
        [] "" ".m4b" ∧
    split_chapters_core [] [⟨10, 5, "x"⟩] [] "" ".m4b" = ([], []) :=
  engine_tolerates_defective_segments [⟨1, 2, "chapter 1", "chapter 1", some 1⟩]
    [⟨10, 5, "x"⟩] [⟨0, 5, "x"⟩] [] "" ".m4b" (by decide)

theorem restricted_pattern_excludes_witness :
    pyLower (pyStrip (Marker.keyword
      ⟨0, 4, "the Foreword, chapter 3", "chapter 3", some 3⟩)) ∉ excludedKeywords :=
  (restricted_pattern_excludes [⟨0, 4, "the Foreword, chapter 3"⟩] [] "" ".m4b").2.1
    ⟨0, 4, "the Foreword, chapter 3", "chapter 3", some 3⟩ (by decide)
